import Mathlib

/-!
PageRank by BSP supersteps: embedding and verification.

Shallow embedding of the four `rankPages` / `loadInput` back ends
(`examples/sequential/sequential.cpp`, `examples/parallel/parallel.cpp`,
`examples/page-rank/distributed/distributed.cpp`,
`examples/page-rank/accelerated/accelerated.cpp`).

Conventions of the embedding:
* `double` is modelled in exact arithmetic by `ℚ`;
* `vector<T>` is a `List T`; a read `xs[i]` is `xs.getD i d` and a write `xs[i] = e` is
  `List.set` / `List.modify` (an index out of range is undefined behaviour in the source;
  the theorems assume the bounds that exclude it);
* `unordered_map<string,int>` is an association list, `count`/`operator[]` are `List.lookup`,
  `size()` is the length (keys are inserted at most once);
* `int` vertex ids and sizes are `Nat`; the step budget `maxSupersteps` is an `Int`.
-/

namespace PageRank

/-- Damping constant: `const double DAMPING = 0.85;`. -/
def DAMPING : ℚ := 0.85

/-! ## Sequential back end (`sequential.cpp`) -/

namespace Sequential

/-- The three containers `loadInput` fills by reference: `id`, `rid`, `outEdges`. -/
structure Containers where
  id : List (String × Nat)
  rid : List String
  outEdges : List (List Nat)
deriving DecidableEq, Repr

/-- Empty containers, as `main` declares them before the call. -/
def Containers.empty : Containers := ⟨[], [], []⟩

/-- The lambda `getId`: a label not yet in `id` gets the index `id.size()`, is appended to
`rid` and receives a fresh empty out-edge slot; the result is `id[s]`. -/
def getId (c : Containers) (s : String) : Nat × Containers :=
  match c.id.lookup s with
  | some i => (i, c)
  | none =>
    let idx := c.id.length
    (idx, { id := c.id ++ [(s, idx)], rid := c.rid ++ [s], outEdges := c.outEdges ++ [[]] })

/-- Body of `while (ss >> word)` for the source `u`: `v = getId(word);
outEdges[u].push_back(v);`. The state carries the containers and the local `word`. -/
def readDest (u : Nat) (acc : Containers × String) (w : String) : Containers × String :=
  let q := getId acc.1 w
  ({ q.2 with outEdges := q.2.outEdges.modify (fun es => es ++ [q.1]) u }, w)

/-- One iteration of `while (getline(file, line))`. The local `word` survives from line to
line: on a line without tokens `ss >> word` fails and leaves `word` as it was. -/
def readLine (st : Containers × String) (tokens : List String) : Containers × String :=
  let word := tokens.headD st.2
  let r := getId st.1 word
  tokens.tail.foldl (readDest r.1) (r.2, word)

/-- The function `loadInput`, on the records (token lists) of the file, into the containers
passed by reference. -/
def loadInput (records : List (List String)) (c : Containers) : Containers :=
  (records.foldl readLine (c, "")).1

/-- Loop state of `rankPages` across supersteps. -/
structure State where
  pageRanks : List ℚ
  nextPageRanks : List ℚ
  inbox : List (List ℚ)
  outbox : List (List ℚ)
  messagesSent : Bool
deriving DecidableEq

/-- Variables written by the vertex loop of one superstep. -/
structure Acc where
  nextPageRanks : List ℚ
  outbox : List (List ℚ)
  danglingMass : ℚ
  messagesSent : Bool
deriving DecidableEq

/-- Body of `for (int v = 0; v < n; ++v)` (lines 67-84). -/
def vertexStep (n : Nat) (outEdges : List (List Nat)) (pageRanks : List ℚ)
    (inbox : List (List ℚ)) (a : Acc) (v : Nat) : Acc :=
  let sum := (inbox.getD v []).foldl (fun acc msg => acc + msg) 0
  let next := a.nextPageRanks.set v ((1 - DAMPING) / n + DAMPING * sum)
  let es := outEdges.getD v []
  if es.isEmpty then
    { a with nextPageRanks := next, danglingMass := a.danglingMass + pageRanks.getD v 0 }
  else
    let share := pageRanks.getD v 0 / es.length
    es.foldl
      (fun b u => { b with outbox := b.outbox.modify (fun box => box ++ [share]) u,
                           messagesSent := true })
      { a with nextPageRanks := next }

/-- One superstep: the body of the `for (step ...)` loop (lines 64-98). -/
def superstep (n : Nat) (outEdges : List (List Nat)) (s : State) : State :=
  let a := (List.range n).foldl (vertexStep n outEdges s.pageRanks s.inbox)
    { nextPageRanks := s.nextPageRanks, outbox := s.outbox, danglingMass := 0,
      messagesSent := false }
  let danglingShare := DAMPING * a.danglingMass / n
  let next := (List.range n).foldl (fun l v => l.modify (fun x => x + danglingShare) v)
    a.nextPageRanks
  { pageRanks := next
    nextPageRanks := s.pageRanks.map (fun _ => 0)
    inbox := a.outbox
    outbox := s.inbox.map (fun _ => [])
    messagesSent := a.messagesSent }

/-- The loop `for (step = 0; step < maxSupersteps && messagesSent; ++step)`, with the number
of steps still allowed by the budget as first argument. -/
def loop (n : Nat) (outEdges : List (List Nat)) : Nat → State → State
  | 0, s => s
  | k + 1, s => if s.messagesSent then loop n outEdges k (superstep n outEdges s) else s

/-- Buffers as declared before the loop (lines 55-61). -/
def init (n : Nat) : State :=
  { pageRanks := List.replicate n (1 / (n : ℚ))
    nextPageRanks := List.replicate n 0
    inbox := List.replicate n []
    outbox := List.replicate n []
    messagesSent := true }

/-- State in which the superstep loop of `rankPages` ends. -/
def run (n : Nat) (outEdges : List (List Nat)) (maxSupersteps : Int) : State :=
  loop n outEdges maxSupersteps.toNat (init n)

/-- The function `rankPages`: `n = pageIds.size()`, the result is `pageRanks`. -/
def rankPages (pageIds : List (String × Nat)) (_pageNames : List String)
    (outEdges : List (List Nat)) (maxSupersteps : Int) : List ℚ :=
  (run pageIds.length outEdges maxSupersteps).pageRanks

end Sequential

/-! ## Shared-memory back end (`parallel.cpp`) -/

namespace Parallel

/-- Loop state of the shared-memory `rankPages`: the inbox and outbox hold one scalar per
destination. -/
structure State where
  pageRanks : List ℚ
  nextPageRanks : List ℚ
  inbox : List ℚ
  outbox : List ℚ
  messagesSent : Bool
deriving DecidableEq

/-- Variables written by the first `parallel for` of one superstep. -/
structure Acc where
  nextPageRanks : List ℚ
  outbox : List ℚ
  danglingMass : ℚ
  messagesSent : Bool
deriving DecidableEq

/-- Body of the first `parallel for` (lines 73-87); `outbox[u] += share` is atomic, the two
reduction variables are combined by `|` and `+`. -/
def vertexStep (n : Nat) (outEdges : List (List Nat)) (pageRanks : List ℚ)
    (inbox : List ℚ) (a : Acc) (v : Nat) : Acc :=
  let sum := inbox.getD v 0
  let next := a.nextPageRanks.set v ((1 - DAMPING) / n + DAMPING * sum)
  let es := outEdges.getD v []
  if es.isEmpty then
    { a with nextPageRanks := next, danglingMass := a.danglingMass + pageRanks.getD v 0 }
  else
    let share := pageRanks.getD v 0 / es.length
    es.foldl
      (fun b u => { b with outbox := b.outbox.modify (fun x => x + share) u,
                           messagesSent := true })
      { a with nextPageRanks := next }

/-- One superstep (lines 67-98). The iterations of the two `parallel for` loops are executed
in the orders `order.1` and `order.2`. -/
def superstep (n : Nat) (outEdges : List (List Nat)) (order : List Nat × List Nat)
    (s : State) : State :=
  let a := order.1.foldl (vertexStep n outEdges s.pageRanks s.inbox)
    { nextPageRanks := s.nextPageRanks, outbox := s.outbox.map (fun _ => 0), danglingMass := 0,
      messagesSent := false }
  let danglingShare := DAMPING * a.danglingMass / n
  let next := order.2.foldl (fun l v => l.modify (fun x => x + danglingShare) v)
    a.nextPageRanks
  { pageRanks := next
    nextPageRanks := s.pageRanks.map (fun _ => 0)
    inbox := a.outbox
    outbox := s.inbox
    messagesSent := a.messagesSent }

/-- The loop `for (step = 0; step < maxSupersteps && messagesSent; ++step)`: `k` steps are
still allowed, `step` is the index of the next one, `sched step` the iteration orders of its
two parallel loops. -/
def loop (n : Nat) (outEdges : List (List Nat)) (sched : Nat → List Nat × List Nat) :
    Nat → Nat → State → State
  | 0, _, s => s
  | k + 1, step, s =>
    if s.messagesSent then
      loop n outEdges sched k (step + 1) (superstep n outEdges (sched step) s)
    else s

/-- Buffers as declared before the loop (lines 56-62). -/
def init (n : Nat) : State :=
  { pageRanks := List.replicate n (1 / (n : ℚ))
    nextPageRanks := List.replicate n 0
    inbox := List.replicate n 0
    outbox := List.replicate n 0
    messagesSent := true }

/-- State in which the superstep loop ends. -/
def run (n : Nat) (outEdges : List (List Nat)) (sched : Nat → List Nat × List Nat)
    (maxSupersteps : Int) : State :=
  loop n outEdges sched maxSupersteps.toNat 0 (init n)

/-- The shared-memory `rankPages` under the schedule `sched`. -/
def rankPages (sched : Nat → List Nat × List Nat) (pageIds : List (String × Nat))
    (_pageNames : List String) (outEdges : List (List Nat)) (maxSupersteps : Int) : List ℚ :=
  (run pageIds.length outEdges sched maxSupersteps).pageRanks

end Parallel

/-! ## Distributed back end (`distributed.cpp`) -/

namespace Distributed

/-- Block size `verticesPerProcess = (n + size - 1) / size`. -/
def verticesPerProcess (n size : Nat) : Nat := (n + size - 1) / size

/-- First vertex of the block of worker `r`: `r * verticesPerProcess`. -/
def blockStart (n size r : Nat) : Nat := r * verticesPerProcess n size

/-- End of the block of worker `r`: `min(start + verticesPerProcess, n)`. -/
def blockEnd (n size r : Nat) : Nat :=
  min (blockStart n size r + verticesPerProcess n size) n

/-- Signed difference `end - start` for the block of worker `r`. -/
def blockCount (n size r : Nat) : Int := (blockEnd n size r : Int) - (blockStart n size r : Int)

/-- The value `localN = max(0, verticiesEnd - verticiesStart)`, which is also the
`processVertexCount` shipped to worker `r`. -/
def localN (n size r : Nat) : Nat := (max 0 (blockCount n size r)).toNat

/-- Per-process data of worker `rank`. -/
structure Worker where
  verticiesStart : Nat
  localN : Nat
  localOutEdges : List (List Nat)
  localPageRanks : List ℚ
  nextLocalPageRanks : List ℚ
  messages : List ℚ
deriving DecidableEq

/-- What one worker contributes to the three collectives of a superstep. -/
structure Partial where
  messages : List ℚ
  localDangling : ℚ
  messagesSent : Bool
deriving DecidableEq

/-- Body of the local loop `for (int i = 0; i < localN; ++i)` (lines 130-140). -/
def localStep (w : Worker) (p : Partial) (i : Nat) : Partial :=
  let es := w.localOutEdges.getD i []
  if es.isEmpty then
    { p with localDangling := p.localDangling + w.localPageRanks.getD i 0 }
  else
    let share := w.localPageRanks.getD i 0 / es.length
    { p with messages := es.foldl (fun m u => m.modify (fun x => x + share) u) p.messages,
             messagesSent := true }

/-- Lines 124-140 on one worker: buffers reset, then the local loop. -/
def localPhase (w : Worker) : Partial :=
  (List.range w.localN).foldl (localStep w)
    { messages := w.messages.map (fun _ => 0), localDangling := 0, messagesSent := false }

/-- The collective `MPI_Allreduce(..., MPI_SUM, ...)` on length-`n` buffers: exact
element-wise sum over the workers. -/
def allreduceSum (n : Nat) (bufs : List (List ℚ)) : List ℚ :=
  (List.range n).map (fun v => (bufs.map (fun b => b.getD v 0)).sum)

/-- One superstep on all workers (lines 124-157); the result carries the flag every worker
holds after the logical-OR reduction. -/
def superstep (n : Nat) (ws : List Worker) : List Worker × Bool :=
  let ps := ws.map localPhase
  let messages := allreduceSum n (ps.map (fun p => p.messages))
  let danglingMass := (ps.map (fun p => p.localDangling)).sum
  let danglingShare := DAMPING * danglingMass / n
  let anyMessage := ps.any (fun p => p.messagesSent)
  (ws.map (fun w =>
      { w with
        localPageRanks := (List.range w.localN).foldl
          (fun l i => l.set i
            ((1 - DAMPING) / n + DAMPING * messages.getD (w.verticiesStart + i) 0 + danglingShare))
          (w.nextLocalPageRanks.map (fun _ => 0))
        nextLocalPageRanks := w.localPageRanks
        messages := messages }),
    anyMessage)

/-- The loop `for (step = 0; step < maxSupersteps && messagesSent; ++step)`, all workers in
lock step. -/
def loop (n : Nat) : Nat → List Worker × Bool → List Worker × Bool
  | 0, s => s
  | k + 1, s => if s.2 then loop n k (superstep n s.1) else s

/-- Worker `r` after the distribution of the graph partitions (lines 67-119). -/
def initWorker (n size : Nat) (outEdges : List (List Nat)) (r : Nat) : Worker :=
  { verticiesStart := blockStart n size r
    localN := localN n size r
    localOutEdges := (List.range (localN n size r)).map
      (fun i => outEdges.getD (blockStart n size r + i) [])
    localPageRanks := List.replicate (localN n size r) (1 / (n : ℚ))
    nextLocalPageRanks := List.replicate (localN n size r) 0
    messages := List.replicate n 0 }

/-- The collective `MPI_Gatherv` at the coordinator with `counts[i] = end - start` and
`displacements[i] = start` (lines 160-169): a negative receive count is rejected by the
library (`none`); otherwise the `counts[i]` values sent by worker `i` are stored from
`displacements[i]` on. -/
def gatherv (n size : Nat) (ws : List Worker) : Option (List ℚ) :=
  if (List.range size).all (fun i => decide (0 ≤ blockCount n size i)) then
    some ((List.range size).foldl
      (fun pageRanks i =>
        (List.range (blockCount n size i).toNat).foldl
          (fun pr j => pr.set (blockStart n size i + j)
            (((ws.map (fun w => w.localPageRanks)).getD i []).getD j 0))
          pageRanks)
      (List.replicate n 0))
  else none

/-- The distributed `rankPages` as seen by the coordinator, with `size` workers and
`n = pageIds.size()` broadcast by the coordinator. -/
def rankPages (size : Nat) (pageIds : List (String × Nat)) (_pageNames : List String)
    (outEdges : List (List Nat)) (maxSupersteps : Int) : Option (List ℚ) :=
  let n := pageIds.length
  let ws := (List.range size).map (initWorker n size outEdges)
  gatherv n size (loop n maxSupersteps.toNat (ws, true)).1

end Distributed

/-! ## Accelerated back end (`accelerated.cpp`): ingestion -/

namespace Accelerated

/-- State of the ingestion loop: the two id tables and the local `tmpEdges`. -/
structure Ingest where
  pageIds : List (String × Nat)
  pageNames : List String
  tmpEdges : List (List Nat)
deriving DecidableEq, Repr

/-- The four containers `loadInput` fills by reference. -/
structure Containers where
  pageIds : List (String × Nat)
  pageNames : List String
  edges : List Nat
  offsets : List Nat
deriving DecidableEq, Repr

/-- Empty containers, as `main` declares them before the call. -/
def Containers.empty : Containers := ⟨[], [], [], []⟩

/-- The lambda `getId` of the accelerated `loadInput`: no edge slot is created here. -/
def getId (c : Ingest) (s : String) : Nat × Ingest :=
  match c.pageIds.lookup s with
  | some i => (i, c)
  | none =>
    let idx := c.pageIds.length
    (idx, { c with pageIds := c.pageIds ++ [(s, idx)], pageNames := c.pageNames ++ [s] })

/-- Body of `while (ss >> word)` for the source `u`: `int v = getId(word);
tmpEdges[u].push_back(v);`. -/
def readDest (u : Nat) (acc : Ingest × String) (w : String) : Ingest × String :=
  let q := getId acc.1 w
  ({ q.2 with tmpEdges := q.2.tmpEdges.modify (fun es => es ++ [q.1]) u }, w)

/-- The statement `if ((int)tmpEdges.size() <= u) tmpEdges.resize(u + 1);`. -/
def growTo (u : Nat) (c : Ingest) : Ingest :=
  if c.tmpEdges.length ≤ u then
    { c with tmpEdges := c.tmpEdges ++ List.replicate (u + 1 - c.tmpEdges.length) [] }
  else c

/-- One iteration of `while (getline(file, line))` (lines 123-136). -/
def readLine (st : Ingest × String) (tokens : List String) : Ingest × String :=
  let word := tokens.headD st.2
  let r := getId st.1 word
  tokens.tail.foldl (readDest r.1) (growTo r.1 r.2, word)

/-- The loop `for (const auto& vec : tmpEdges)` (lines 139-142) on the pair
`(edges, offsets)`. -/
def flattenEdges (tmpEdges : List (List Nat)) (eo : List Nat × List Nat) :
    List Nat × List Nat :=
  tmpEdges.foldl (fun acc vec => (acc.1 ++ vec, acc.2 ++ [(acc.1 ++ vec).length])) eo

/-- The loop `while ((int)offsets.size() <= (int)pageIds.size())` (lines 144-146). -/
def padOffsets (n edgesSize : Nat) (offsets : List Nat) : List Nat :=
  if offsets.length ≤ n then padOffsets n edgesSize (offsets ++ [edgesSize]) else offsets
termination_by n + 1 - offsets.length
decreasing_by simp_wf; omega

/-- The accelerated `loadInput`, on the records of the file, into the containers passed by
reference. -/
def loadInput (records : List (List String)) (c : Containers) : Containers :=
  let g := (records.foldl readLine
    (({ pageIds := c.pageIds, pageNames := c.pageNames, tmpEdges := [] } : Ingest), "")).1
  let eo := flattenEdges g.tmpEdges (c.edges, c.offsets ++ [0])
  { pageIds := g.pageIds
    pageNames := g.pageNames
    edges := eo.1
    offsets := padOffsets g.pageIds.length eo.1.length eo.2 }

end Accelerated

/-! ## The recurrence of the specification -/

namespace Spec

/-- Damping factor of the specification, `d = 0.85`. -/
def d : ℚ := 0.85

/-- Out-degree of `u`: the number of edge occurrences leaving `u`. -/
def outDegree (outEdges : List (List Nat)) (u : Nat) : Nat := (outEdges.getD u []).length

/-- Every edge occurrence `u -> v` of the graph, with multiplicity. -/
def edgeOccurrences (n : Nat) (outEdges : List (List Nat)) : List (Nat × Nat) :=
  (List.range n).flatMap (fun u => (outEdges.getD u []).map (fun v => (u, v)))

/-- The dangling vertices: those of out-degree zero. -/
def danglingVertices (n : Nat) (outEdges : List (List Nat)) : List Nat :=
  (List.range n).filter (fun u => decide (outDegree outEdges u = 0))

/-- The lagged BSP recurrence `(r_s, m_s)`:
`r_0[v] = 1/n`, `m_0[v] = 0`,
`r_{s+1}[v] = (1-d)/n + d*m_s[v] + d*(sum of r_s[u] over dangling u)/n`,
`m_{s+1}[v] = sum over every edge occurrence u->v of r_s[u]/outDegree(u)`. -/
def lagged (n : Nat) (outEdges : List (List Nat)) : Nat → List ℚ × List ℚ
  | 0 => (List.replicate n (1 / (n : ℚ)), List.replicate n 0)
  | s + 1 =>
    let r := (lagged n outEdges s).1
    let m := (lagged n outEdges s).2
    ((List.range n).map (fun v =>
        (1 - d) / n + d * m.getD v 0
          + d * ((danglingVertices n outEdges).map (fun u => r.getD u 0)).sum / n),
     (List.range n).map (fun v =>
        (((edgeOccurrences n outEdges).filter (fun e => decide (e.2 = v))).map
          (fun e => r.getD e.1 0 / (outDegree outEdges e.1 : ℚ))).sum))

end Spec

/-! ## Quantities used to describe one superstep -/

/-- Test `outEdges[v].empty()`. -/
def dangling (outEdges : List (List Nat)) (v : Nat) : Bool := (outEdges.getD v []).isEmpty

/-- The value `share = pageRanks[v] / outEdges[v].size()`. -/
def share (outEdges : List (List Nat)) (pageRanks : List ℚ) (v : Nat) : ℚ :=
  pageRanks.getD v 0 / ((outEdges.getD v []).length : ℚ)

/-- Rank mass of the dangling vertices among `vs`. -/
def danglingSum (outEdges : List (List Nat)) (pageRanks : List ℚ) (vs : List Nat) : ℚ :=
  (vs.map (fun v => if dangling outEdges v then pageRanks.getD v 0 else 0)).sum

/-- Mass sent to the cell `u` by the vertices `vs`: one `share` per edge occurrence. -/
def sentTo (outEdges : List (List Nat)) (pageRanks : List ℚ) (vs : List Nat) (u : Nat) : ℚ :=
  (vs.map (fun v =>
    ((outEdges.getD v []).map (fun e => if e = u then share outEdges pageRanks v else 0)).sum)).sum

/-- A graph on `n` vertices: one out-edge slot per vertex, every destination in `[0, n)`. -/
def WellFormed (n : Nat) (outEdges : List (List Nat)) : Prop :=
  outEdges.length = n ∧ ∀ es ∈ outEdges, ∀ u ∈ es, u < n

instance (n : Nat) (outEdges : List (List Nat)) : Decidable (WellFormed n outEdges) := by
  unfold WellFormed; infer_instance

namespace Sequential

/-- The messages the vertices `vs` push into the outbox `ob`. -/
def deliver (outEdges : List (List Nat)) (pageRanks : List ℚ) (vs : List Nat)
    (ob : List (List ℚ)) : List (List ℚ) :=
  vs.foldl (fun ob v => (outEdges.getD v []).foldl
    (fun ob u => ob.modify (fun box => box ++ [share outEdges pageRanks v]) u) ob) ob

end Sequential

namespace Parallel

/-- The shares the vertices `vs` add into the scalar outbox `ob`. -/
def deliver (outEdges : List (List Nat)) (pageRanks : List ℚ) (vs : List Nat)
    (ob : List ℚ) : List ℚ :=
  vs.foldl (fun ob v => (outEdges.getD v []).foldl
    (fun ob u => ob.modify (fun x => x + share outEdges pageRanks v) u) ob) ob

end Parallel

namespace Sequential

/-- Shape of the loop state between supersteps: every buffer has `n` cells and the outbox is
cleared. -/
def Inv (n : Nat) (s : State) : Prop :=
  s.pageRanks.length = n ∧ s.nextPageRanks.length = n ∧ s.inbox.length = n ∧
    s.outbox = List.replicate n []

end Sequential

namespace Parallel

/-- Shape of the loop state between supersteps: every buffer has `n` cells. -/
def Inv (n : Nat) (s : State) : Prop :=
  s.pageRanks.length = n ∧ s.nextPageRanks.length = n ∧ s.inbox.length = n ∧
    s.outbox.length = n

end Parallel

/-! ## Quantities used to describe ingestion -/

namespace Spec

/-- The duplicate-free list of the labels of a token stream, in order of first occurrence. -/
def firstOccurrences : List String → List String
  | [] => []
  | t :: ts => t :: (firstOccurrences ts).filter (fun s => s != t)

end Spec

/-- Effect of `getId` on the reverse table: an unseen label is appended. -/
def addLabel (rid : List String) (s : String) : List String :=
  if s ∈ rid then rid else rid ++ [s]

namespace Sequential

/-- The read `id[s]` of the label→id map. -/
def idOf (c : Containers) (s : String) : Nat := (c.id.lookup s).getD 0

/-- The containers agree: as many ids as labels and slots, and the map sends every label of
the reverse table to its index there. -/
def Consistent (c : Containers) : Prop :=
  c.id.length = c.rid.length ∧ c.outEdges.length = c.rid.length ∧
    ∀ s, c.id.lookup s = if s ∈ c.rid then some (c.rid.indexOf s) else none

end Sequential

/-- Out-edge slot of the vertex `u` as the records prescribe it: the destination ids of the
records whose source has the id `u`, concatenated in input order (`ident` gives the id of a
label). -/
def slotOf (ident : String → Nat) (records : List (List String)) (u : Nat) : List Nat :=
  (records.filter (fun r => decide (ident (r.headD "") = u))).flatMap
    (fun r => r.tail.map ident)

namespace Accelerated

/-- The slice `edges[offsets[v] .. offsets[v+1])` the kernels read for the vertex `v`. -/
def slice (c : Containers) (v : Nat) : List Nat :=
  (c.edges.drop (c.offsets.getD v 0)).take (c.offsets.getD (v + 1) 0 - c.offsets.getD v 0)

/-- The ingestion state of the accelerated `loadInput` matches the containers of the
sequential one: same tables, and `tmpEdges` holds the same out-edges, the slots it lacks
being empty on the sequential side. -/
def Matches (a : Ingest) (c : Sequential.Containers) : Prop :=
  a.pageIds = c.id ∧ a.pageNames = c.rid ∧ a.tmpEdges.length ≤ c.rid.length ∧
    ∀ x, a.tmpEdges.getD x [] = c.outEdges.getD x []

end Accelerated

/-! ## Accelerated back end (`accelerated.cpp`): kernels and host loop

The platform, device, context, queue, program and kernel calls are taken to succeed. A
buffer creation is refused by the OpenCL runtime when zero bytes are asked for, and
`checkError` then ends the process. The work-items of a kernel are run one after the other,
in exact arithmetic; a buffer created without host data is modelled as zero-filled, and is
overwritten before it is read. -/

namespace Accelerated

/-- Global work size: `((n + 255) / 256) * 256`. -/
def globalWorkSize (n : Nat) : Nat := ((n + 255) / 256) * 256

/-- Local work size: `256`. -/
def localWorkSize : Nat := 256

/-- The device buffers and the host loop variable `step`. -/
structure Device where
  pageRanks : List ℚ
  nextPageRanks : List ℚ
  inbox : List ℚ
  outbox : List ℚ
  danglingMass : ℚ
  step : Nat
deriving DecidableEq

/-- Work-item `v` of `pageRankKernel` (lines 41-56), acting on the pair
`(nextPageRanks, outbox)`; `atomic_add_double(&outbox[u], share)` adds `share` to the cell. -/
def pageRankItem (n : Nat) (offsets edges : List Nat) (inbox pageRanks : List ℚ)
    (damping : ℚ) (st : List ℚ × List ℚ) (v : Nat) : List ℚ × List ℚ :=
  if n ≤ v then st
  else
    let sum := inbox.getD v 0
    let next := st.1.set v ((1 - damping) / n + damping * sum)
    let start := offsets.getD v 0
    let stop := offsets.getD (v + 1) 0
    if start < stop then
      let share := pageRanks.getD v 0 / ((stop - start : Nat) : ℚ)
      (next, (List.range' start (stop - start)).foldl
        (fun ob i => ob.modify (fun x => x + share) (edges.getD i 0)) st.2)
    else (next, st.2)

/-- What the work-item `v` of `danglingMassKernel` stores in `localSum[lid]` (lines 70-75). -/
def danglingItem (n : Nat) (offsets : List Nat) (pageRanks : List ℚ) (v : Nat) : ℚ :=
  if v < n ∧ offsets.getD v 0 = offsets.getD (v + 1) 0 then pageRanks.getD v 0 else 0

/-- One round of the tree reduction: every `lid < stride` adds `localSum[lid + stride]` into
`localSum[lid]`, then the work-group meets at the barrier. -/
def reduceRound (stride : Nat) (localSum : List ℚ) : List ℚ :=
  (List.range stride).foldl
    (fun ls lid => ls.modify (fun x => x + localSum.getD (lid + stride) 0) lid) localSum

/-- The loop `for (stride = ...; stride > 0; stride >>= 1)` of `danglingMassKernel`. -/
def treeReduce (stride : Nat) (localSum : List ℚ) : List ℚ :=
  if 0 < stride then treeReduce (stride / 2) (reduceRound stride localSum) else localSum
termination_by stride
decreasing_by omega

/-- What the work-group `g` of `danglingMassKernel` adds to the dangling-mass scalar:
`localSum[0]` after the reduction. -/
def groupSum (n : Nat) (offsets : List Nat) (pageRanks : List ℚ) (g : Nat) : ℚ :=
  (treeReduce (localWorkSize / 2)
    ((List.range localWorkSize).map
      (fun lid => danglingItem n offsets pageRanks (g * localWorkSize + lid)))).getD 0 0

/-- The kernel `danglingMassKernel` over all work-groups. -/
def danglingMassKernel (n : Nat) (offsets : List Nat) (pageRanks : List ℚ)
    (danglingMass : ℚ) : ℚ :=
  (List.range (globalWorkSize n / localWorkSize)).foldl
    (fun dm g => dm + groupSum n offsets pageRanks g) danglingMass

/-- Work-item `v` of `addDanglingMassKernel` (lines 95-97). -/
def addDanglingItem (n : Nat) (danglingShare : ℚ) (nextPageRanks : List ℚ) (v : Nat) :
    List ℚ :=
  if n ≤ v then nextPageRanks else nextPageRanks.modify (fun x => x + danglingShare) v

/-- One iteration of the host loop (lines 237-280): the two fills, the three kernel
dispatches, the read-back of the dangling mass, the copy of the outbox into the inbox and the
swap of the rank buffers; then `++step`. -/
def superstep (n : Nat) (offsets edges : List Nat) (s : Device) : Device :=
  let r := (List.range (globalWorkSize n)).foldl
    (pageRankItem n offsets edges s.inbox s.pageRanks DAMPING)
    (s.nextPageRanks, s.outbox.map (fun _ => 0))
  let danglingMass := danglingMassKernel n offsets s.pageRanks 0
  let danglingShare := DAMPING * danglingMass / n
  let next := (List.range (globalWorkSize n)).foldl (addDanglingItem n danglingShare) r.1
  { pageRanks := next
    nextPageRanks := s.pageRanks
    inbox := r.2
    outbox := r.2
    danglingMass := danglingMass
    step := s.step + 1 }

/-- The host loop `for (int step = 0; step < maxSupersteps; ++step)`, with the number of
steps still allowed by the budget as first argument. -/
def hostLoop (n : Nat) (offsets edges : List Nat) : Nat → Device → Device
  | 0, s => s
  | k + 1, s => hostLoop n offsets edges k (superstep n offsets edges s)

/-- Buffers as created before the host loop (lines 209-231). -/
def initDevice (n : Nat) : Device :=
  { pageRanks := List.replicate n (1 / (n : ℚ))
    nextPageRanks := List.replicate n 0
    inbox := List.replicate n 0
    outbox := List.replicate n 0
    danglingMass := 0
    step := 0 }

/-- The call `clCreateBuffer` followed by `checkError`: a request for zero bytes is refused
(`CL_INVALID_BUFFER_SIZE`), `checkError` prints the error and calls `exit(1)` (`none`). -/
def createBuffer (bytes : Nat) : Option Unit :=
  if bytes = 0 then none else some ()

/-- The seven buffer creations of lines 212-231, with `n = pageIds.size()`,
`m = edges.size()`, `sizeof(double) = 8` and `sizeof(int) = 4`: `d_pageRanks`,
`d_nextPageRanks`, `d_inbox`, `d_outbox`, `d_edges`, `d_offsets`, `d_danglingMass`. -/
def createBuffers (n m : Nat) : Option Unit :=
  (createBuffer (n * 8)).bind fun _ =>
  (createBuffer (n * 8)).bind fun _ =>
  (createBuffer (n * 8)).bind fun _ =>
  (createBuffer (n * 8)).bind fun _ =>
  (createBuffer (m * 4)).bind fun _ =>
  (createBuffer ((n + 1) * 4)).bind fun _ =>
  createBuffer 8

/-- The accelerated `rankPages` up to the end of the host loop: the buffers are created
(`none` when the process exits there), then the host loop runs. -/
def run (n : Nat) (offsets edges : List Nat) (maxSupersteps : Int) : Option Device :=
  (createBuffers n edges.length).bind fun _ =>
    some (hostLoop n offsets edges maxSupersteps.toNat (initDevice n))

/-- The accelerated `rankPages`: `n = pageIds.size()`, the result is the read-back of
`d_pageRanks`, or `none` when the process has exited. -/
def rankPages (pageIds : List (String × Nat)) (_pageNames : List String)
    (edges offsets : List Nat) (maxSupersteps : Int) : Option (List ℚ) :=
  (run pageIds.length offsets edges maxSupersteps).map (fun s => s.pageRanks)

end Accelerated

/-! ## Concurrent accumulation into one cell

`K` senders add their shares into the same destination cell within one superstep. Every
access to the cell is one indivisible step, and an interleaving is the list of the senders in
the order in which they take their steps. -/

namespace Atomic

/-- Where a sender stands inside `atomic_add_double` (accelerated.cpp, lines 25-28): about to
read `*addr` into `old_val`; holding `old_val` (and `new_val = old_val + val`) in front of
`atom_cmpxchg`; or past the loop. -/
inductive Pc where
  | load : Pc
  | cas (old : ℚ) : Pc
  | done : Pc
deriving DecidableEq

/-- The destination cell and the position of every sender. -/
structure Cfg where
  cell : ℚ
  pcs : List Pc
deriving DecidableEq

/-- The next step of sender `i` in `atomic_add_double`: the read of `*addr`, or
`atom_cmpxchg(addr, old, new)`, which stores `new = old + val` when the cell still holds `old`
and otherwise sends the sender round the `do ... while` loop again. -/
def casStep (shares : List ℚ) (c : Cfg) (i : Nat) : Cfg :=
  match c.pcs.getD i Pc.done with
  | Pc.load => { c with pcs := c.pcs.set i (Pc.cas c.cell) }
  | Pc.cas old =>
    if c.cell = old then { cell := old + shares.getD i 0, pcs := c.pcs.set i Pc.done }
    else { c with pcs := c.pcs.set i Pc.load }
  | Pc.done => c

/-- All senders in front of their first read, the cell holding `cell0`. -/
def casInit (shares : List ℚ) (cell0 : ℚ) : Cfg :=
  { cell := cell0, pcs := List.replicate shares.length Pc.load }

/-- The configuration after the interleaving `sched`. -/
def casRun (shares : List ℚ) (cell0 : ℚ) (sched : List Nat) : Cfg :=
  sched.foldl (casStep shares) (casInit shares cell0)

/-- Every sender has left `atomic_add_double`: the cell is settled. -/
def settled (c : Cfg) : Prop := ∀ p ∈ c.pcs, p = Pc.done

/-- The cell and, for every sender of the shared-memory back end, whether its
`#pragma omp atomic` update `outbox[u] += share` (parallel.cpp, lines 82-83) is still to come. -/
structure OmpCfg where
  cell : ℚ
  pending : List Bool
deriving DecidableEq

/-- The atomic update of sender `i`: one indivisible read-add-write of the cell. -/
def ompStep (shares : List ℚ) (c : OmpCfg) (i : Nat) : OmpCfg :=
  if c.pending.getD i false then
    { cell := c.cell + shares.getD i 0, pending := c.pending.set i false }
  else c

/-- All updates still to come, the cell holding `cell0`. -/
def ompInit (shares : List ℚ) (cell0 : ℚ) : OmpCfg :=
  { cell := cell0, pending := List.replicate shares.length true }

/-- The configuration after the senders took their updates in the order `sched`. -/
def ompRun (shares : List ℚ) (cell0 : ℚ) (sched : List Nat) : OmpCfg :=
  sched.foldl (ompStep shares) (ompInit shares cell0)

/-- No update is still to come: the cell is settled. -/
def ompSettled (c : OmpCfg) : Prop := ∀ b ∈ c.pending, b = false

/-- Sum of the shares of the senders marked by `f`. -/
def markedSum {α : Type} (f : α → Bool) (marks : List α) (shares : List ℚ) : ℚ :=
  (List.zipWith (fun m x => if f m then x else 0) marks shares).sum

/-- Number of senders that have not yet left `atomic_add_double`. -/
def live (pcs : List Pc) : Nat := pcs.countP (fun p => decide (p ≠ Pc.done))

/-- Bound on the number of steps sender `i` still needs: each of the other live senders can
make it fail once. -/
def potential (c : Cfg) (i : Nat) : Nat :=
  match c.pcs.getD i Pc.done with
  | Pc.load => 2 * live c.pcs
  | Pc.cas old => if c.cell = old then 2 * live c.pcs - 1 else 2 * live c.pcs + 1
  | Pc.done => 0

end Atomic

namespace Atomic

/-- The cell holds the start value plus the shares of the senders that are through. -/
def CasInv (shares : List ℚ) (cell0 : ℚ) (c : Cfg) : Prop :=
  c.pcs.length = shares.length ∧
    c.cell = cell0 + markedSum (fun p => decide (p = Pc.done)) c.pcs shares

/-- The cell holds the start value plus the shares of the senders whose update is made. -/
def OmpInv (shares : List ℚ) (cell0 : ℚ) (c : OmpCfg) : Prop :=
  c.pending.length = shares.length ∧
    c.cell = cell0 + markedSum (fun b => !b) c.pending shares

end Atomic

end PageRank

/-! ## General facts about loops over vectors -/

namespace PageRank

theorem getElem?_foldl_set {α : Type} (g : Nat → α) (vs : List Nat) (l : List α) (i : Nat) :
    (vs.foldl (fun l v => l.set v (g v)) l)[i]? =
      if i ∈ vs then l[i]?.map (fun _ => g i) else l[i]? := by
  induction vs generalizing l with
  | nil => simp
  | cons v vs ih =>
    simp only [List.foldl_cons, ih, List.mem_cons]
    by_cases hv : v = i
    · subst hv
      by_cases hl : v < l.length
      · simp [List.getElem?_set, hl, List.getElem?_eq_getElem hl]
      · have h1 : l[v]? = none := List.getElem?_eq_none (by omega)
        simp [List.getElem?_set, hl, h1]
    · have hv' : ¬ i = v := fun h => hv h.symm
      by_cases hi : i ∈ vs <;> simp [hi, hv, hv', List.getElem?_set]

theorem length_foldl_set {α : Type} (g : Nat → α) (vs : List Nat) (l : List α) :
    (vs.foldl (fun l v => l.set v (g v)) l).length = l.length := by
  induction vs generalizing l with
  | nil => rfl
  | cons v vs ih => simp [ih]

theorem foldl_set_range {α : Type} (g : Nat → α) (n : Nat) (l : List α) (hl : l.length = n) :
    (List.range n).foldl (fun l v => l.set v (g v)) l = (List.range n).map g := by
  apply List.ext_getElem?
  intro i
  rw [getElem?_foldl_set]
  by_cases hi : i < n
  · have : l[i]? = some l[i] := List.getElem?_eq_getElem (by omega)
    simp [hi, this, List.getElem?_range hi]
  · have h1 : l[i]? = none := List.getElem?_eq_none (by omega)
    have h2 : (List.range n)[i]? = none := List.getElem?_eq_none (by simp; omega)
    simp [hi, h1, h2]

theorem getElem?_foldl_modify {α : Type} (f : α → α) (vs : List Nat) (hvs : vs.Nodup)
    (l : List α) (i : Nat) :
    (vs.foldl (fun l v => l.modify f v) l)[i]? = if i ∈ vs then l[i]?.map f else l[i]? := by
  induction vs generalizing l with
  | nil => simp
  | cons v vs ih =>
    have hnd := List.nodup_cons.mp hvs
    simp only [List.foldl_cons, ih hnd.2, List.mem_cons]
    by_cases hv : v = i
    · subst hv
      simp [hnd.1, List.getElem?_modify]
    · have hv' : ¬ i = v := fun h => hv h.symm
      by_cases hi : i ∈ vs <;> simp [hi, hv, hv', List.getElem?_modify]

theorem foldl_modify_range {α : Type} (f : α → α) (n : Nat) (l : List α) (hl : l.length = n) :
    (List.range n).foldl (fun l v => l.modify f v) l = l.map f := by
  apply List.ext_getElem?
  intro i
  rw [getElem?_foldl_modify f _ (List.nodup_range n)]
  by_cases hi : i < n
  · simp [hi]
  · have h1 : l[i]? = none := List.getElem?_eq_none (by omega)
    simp [hi, h1]

end PageRank

/-! ## The vertex loop of the sequential superstep -/

namespace PageRank

namespace Sequential

theorem foldl_push (x : ℚ) (es : List Nat) (a : Acc) :
    es.foldl (fun b u => { b with outbox := b.outbox.modify (fun box => box ++ [x]) u,
                                  messagesSent := true }) a
      = { a with
          outbox := es.foldl (fun ob u => ob.modify (fun box => box ++ [x]) u) a.outbox
          messagesSent := a.messagesSent || !es.isEmpty } := by
  induction es generalizing a with
  | nil => simp
  | cons e es ih => simp [ih]

theorem seq_vertexStep_eq (n : Nat) (outEdges : List (List Nat)) (pageRanks : List ℚ)
    (inbox : List (List ℚ)) (a : Acc) (v : Nat) :
    vertexStep n outEdges pageRanks inbox a v =
      { nextPageRanks := a.nextPageRanks.set v
          ((1 - DAMPING) / n + DAMPING * (inbox.getD v []).sum)
        outbox := deliver outEdges pageRanks [v] a.outbox
        danglingMass := a.danglingMass + danglingSum outEdges pageRanks [v]
        messagesSent := a.messagesSent || !dangling outEdges v } := by
  unfold vertexStep
  simp only [← List.sum_eq_foldl, deliver, danglingSum, dangling, share, List.foldl_cons,
    List.foldl_nil, List.map_cons, List.map_nil, List.sum_cons, List.sum_nil, add_zero]
  by_cases h : outEdges.getD v [] = []
  · simp only [h]
    simp
  · obtain ⟨e, es, hes⟩ := List.exists_cons_of_ne_nil h
    simp only [hes]
    simp [foldl_push]

theorem seq_foldl_vertexStep (n : Nat) (outEdges : List (List Nat)) (pageRanks : List ℚ)
    (inbox : List (List ℚ)) (vs : List Nat) (a : Acc) :
    vs.foldl (vertexStep n outEdges pageRanks inbox) a =
      { nextPageRanks := vs.foldl (fun l v => l.set v
          ((1 - DAMPING) / n + DAMPING * (inbox.getD v []).sum)) a.nextPageRanks
        outbox := deliver outEdges pageRanks vs a.outbox
        danglingMass := a.danglingMass + danglingSum outEdges pageRanks vs
        messagesSent := a.messagesSent || vs.any (fun v => !dangling outEdges v) } := by
  induction vs generalizing a with
  | nil => simp [deliver, danglingSum]
  | cons v vs ih =>
    rw [List.foldl_cons, ih, seq_vertexStep_eq]
    simp [deliver, danglingSum, add_assoc, Bool.or_assoc]

end Sequential

end PageRank

/-! ## Accumulation into cells -/

namespace PageRank

theorem length_foldl_modify {α : Type} (f : α → α) (es : List Nat) (l : List α) :
    (es.foldl (fun l e => l.modify f e) l).length = l.length := by
  induction es generalizing l with
  | nil => rfl
  | cons e es ih => simp [ih]

theorem sum_map_modify {α : Type} (μ : α → ℚ) (f : α → α) (x : ℚ)
    (hf : ∀ a, μ (f a) = μ a + x) (l : List α) (w : Nat) (hw : w < l.length) :
    ((l.modify f w).map μ).sum = (l.map μ).sum + x := by
  induction l generalizing w with
  | nil => simp at hw
  | cons a l ih =>
    cases w with
    | zero => simp [hf]; ring
    | succ w =>
      have hw' : w < l.length := by simpa using hw
      simp [ih w hw', add_assoc]

theorem measure_getD_modify {α : Type} (μ : α → ℚ) (f : α → α) (x : ℚ)
    (hf : ∀ a, μ (f a) = μ a + x) (l : List α) (d : α) (w u : Nat) (hu : u < l.length) :
    μ ((l.modify f w).getD u d) = μ (l.getD u d) + if w = u then x else 0 := by
  rw [List.getD_eq_getElem?_getD, List.getD_eq_getElem?_getD, List.getElem?_modify]
  by_cases h : w = u
  · subst h
    simp [List.getElem?_eq_getElem hu, hf]
  · simp [h]

theorem sum_map_foldl_modify {α : Type} (μ : α → ℚ) (f : α → α) (x : ℚ)
    (hf : ∀ a, μ (f a) = μ a + x) (es : List Nat) (l : List α)
    (h : ∀ e ∈ es, e < l.length) :
    ((es.foldl (fun l e => l.modify f e) l).map μ).sum = (l.map μ).sum + es.length * x := by
  induction es generalizing l with
  | nil => simp
  | cons e es ih =>
    have he : e < l.length := h e (List.mem_cons_self _ _)
    rw [List.foldl_cons, ih]
    · rw [sum_map_modify μ f x hf l e he, List.length_cons]
      push_cast
      ring
    · intro e' he'
      rw [List.length_modify]
      exact h e' (List.mem_cons_of_mem _ he')

theorem measure_getD_foldl_modify {α : Type} (μ : α → ℚ) (f : α → α) (x : ℚ)
    (hf : ∀ a, μ (f a) = μ a + x) (es : List Nat) (l : List α) (d : α) (u : Nat)
    (hu : u < l.length) :
    μ ((es.foldl (fun l e => l.modify f e) l).getD u d) =
      μ (l.getD u d) + (es.map (fun e => if e = u then x else 0)).sum := by
  induction es generalizing l with
  | nil => simp
  | cons e es ih =>
    rw [List.foldl_cons, ih _ (by rw [List.length_modify]; exact hu),
      measure_getD_modify μ f x hf l d e u hu]
    simp [add_assoc]

end PageRank

/-! ## Loops whose iterations run in a permuted order -/

namespace PageRank

theorem foldl_set_of_perm {α : Type} (g : Nat → α) (n : Nat) (vs : List Nat)
    (hvs : vs.Perm (List.range n)) (l : List α) (hl : l.length = n) :
    vs.foldl (fun l v => l.set v (g v)) l = (List.range n).map g := by
  apply List.ext_getElem?
  intro i
  have hmem : i ∈ vs ↔ i < n := by rw [hvs.mem_iff, List.mem_range]
  rw [getElem?_foldl_set]
  by_cases hi : i < n
  · have : l[i]? = some l[i] := List.getElem?_eq_getElem (by omega)
    simp [hmem, hi, this, List.getElem?_range hi]
  · have h1 : l[i]? = none := List.getElem?_eq_none (by omega)
    have h2 : (List.range n)[i]? = none := List.getElem?_eq_none (by simp; omega)
    simp [hmem, hi, h1, h2]

theorem foldl_modify_of_perm {α : Type} (f : α → α) (n : Nat) (vs : List Nat)
    (hvs : vs.Perm (List.range n)) (l : List α) (hl : l.length = n) :
    vs.foldl (fun l v => l.modify f v) l = l.map f := by
  apply List.ext_getElem?
  intro i
  have hmem : i ∈ vs ↔ i < n := by rw [hvs.mem_iff, List.mem_range]
  rw [getElem?_foldl_modify f _ (hvs.nodup_iff.mpr (List.nodup_range n))]
  by_cases hi : i < n
  · simp [hmem, hi]
  · have h1 : l[i]? = none := List.getElem?_eq_none (by omega)
    simp [hmem, hi, h1]

theorem danglingSum_perm (outEdges : List (List Nat)) (pageRanks : List ℚ) {vs ws : List Nat}
    (h : vs.Perm ws) : danglingSum outEdges pageRanks vs = danglingSum outEdges pageRanks ws :=
  (h.map _).sum_eq

theorem sentTo_perm (outEdges : List (List Nat)) (pageRanks : List ℚ) {vs ws : List Nat}
    (h : vs.Perm ws) (u : Nat) :
    sentTo outEdges pageRanks vs u = sentTo outEdges pageRanks ws u :=
  (h.map _).sum_eq

theorem any_perm {p : Nat → Bool} {vs ws : List Nat} (h : vs.Perm ws) :
    vs.any p = ws.any p := by
  rw [Bool.eq_iff_iff, List.any_eq_true, List.any_eq_true]
  constructor
  · rintro ⟨x, hx, hp⟩
    exact ⟨x, h.mem_iff.mp hx, hp⟩
  · rintro ⟨x, hx, hp⟩
    exact ⟨x, h.mem_iff.mpr hx, hp⟩

/-- The shares a vertex sends add up to its rank, unless it is dangling. -/
theorem length_mul_share (outEdges : List (List Nat)) (pageRanks : List ℚ) (v : Nat) :
    ((outEdges.getD v []).length : ℚ) * share outEdges pageRanks v =
      if dangling outEdges v then 0 else pageRanks.getD v 0 := by
  unfold share dangling
  by_cases h : outEdges.getD v [] = []
  · simp only [h]
    simp
  · obtain ⟨e, es, hes⟩ := List.exists_cons_of_ne_nil h
    simp only [hes]
    have : ((e :: es).length : ℚ) ≠ 0 := by
      simp only [List.length_cons]
      exact_mod_cast Nat.succ_ne_zero es.length
    simp only [List.isEmpty_cons, Bool.false_eq_true, if_false]
    field_simp

end PageRank

/-! ## What one sequential superstep computes -/

namespace PageRank

namespace Sequential

theorem sum_append_singleton (x : ℚ) (box : List ℚ) : (box ++ [x]).sum = box.sum + x := by
  simp

theorem seq_length_deliver (outEdges : List (List Nat)) (pageRanks : List ℚ) (vs : List Nat)
    (ob : List (List ℚ)) : (deliver outEdges pageRanks vs ob).length = ob.length := by
  unfold deliver
  induction vs generalizing ob with
  | nil => rfl
  | cons v vs ih => rw [List.foldl_cons, ih, length_foldl_modify]

theorem sum_getD_deliver (outEdges : List (List Nat)) (pageRanks : List ℚ) (vs : List Nat)
    (ob : List (List ℚ)) (u : Nat) (hu : u < ob.length) :
    ((deliver outEdges pageRanks vs ob).getD u []).sum =
      (ob.getD u []).sum + sentTo outEdges pageRanks vs u := by
  unfold deliver sentTo
  induction vs generalizing ob with
  | nil => simp
  | cons v vs ih =>
    rw [List.foldl_cons, ih _ (by rw [length_foldl_modify]; exact hu),
      measure_getD_foldl_modify List.sum _ (share outEdges pageRanks v)
        (sum_append_singleton _) _ ob [] u hu]
    simp [add_assoc]

theorem seq_total_deliver (outEdges : List (List Nat)) (pageRanks : List ℚ) (vs : List Nat)
    (ob : List (List ℚ)) (h : ∀ v ∈ vs, ∀ e ∈ outEdges.getD v [], e < ob.length) :
    ((deliver outEdges pageRanks vs ob).map List.sum).sum =
      (ob.map List.sum).sum
        + (vs.map (fun v => if dangling outEdges v then 0 else pageRanks.getD v 0)).sum := by
  unfold deliver
  induction vs generalizing ob with
  | nil => simp
  | cons v vs ih =>
    rw [List.foldl_cons, ih, sum_map_foldl_modify List.sum _ (share outEdges pageRanks v)
        (sum_append_singleton _) _ ob (h v (List.mem_cons_self _ _)), length_mul_share]
    · simp [add_assoc]
    · intro v' hv' e he
      rw [length_foldl_modify]
      exact h v' (List.mem_cons_of_mem _ hv') e he

theorem seq_superstep_eq (n : Nat) (outEdges : List (List Nat)) (s : State)
    (hnext : s.nextPageRanks.length = n) :
    superstep n outEdges s =
      { pageRanks := (List.range n).map (fun v =>
          (1 - DAMPING) / n + DAMPING * (s.inbox.getD v []).sum
            + DAMPING * danglingSum outEdges s.pageRanks (List.range n) / n)
        nextPageRanks := s.pageRanks.map (fun _ => 0)
        inbox := deliver outEdges s.pageRanks (List.range n) s.outbox
        outbox := s.inbox.map (fun _ => [])
        messagesSent := (List.range n).any (fun v => !dangling outEdges v) } := by
  unfold superstep
  simp only [seq_foldl_vertexStep, zero_add, Bool.false_or]
  rw [foldl_set_range _ n _ hnext, foldl_modify_range _ n _ (by simp), List.map_map]
  rfl

end Sequential

end PageRank

/-! ## What one shared-memory superstep computes -/

namespace PageRank

namespace Parallel

theorem foldl_add (x : ℚ) (es : List Nat) (a : Acc) :
    es.foldl (fun b u => { b with outbox := b.outbox.modify (fun y => y + x) u,
                                  messagesSent := true }) a
      = { a with
          outbox := es.foldl (fun ob u => ob.modify (fun y => y + x) u) a.outbox
          messagesSent := a.messagesSent || !es.isEmpty } := by
  induction es generalizing a with
  | nil => simp
  | cons e es ih => simp [ih]

theorem par_vertexStep_eq (n : Nat) (outEdges : List (List Nat)) (pageRanks : List ℚ)
    (inbox : List ℚ) (a : Acc) (v : Nat) :
    vertexStep n outEdges pageRanks inbox a v =
      { nextPageRanks := a.nextPageRanks.set v ((1 - DAMPING) / n + DAMPING * inbox.getD v 0)
        outbox := deliver outEdges pageRanks [v] a.outbox
        danglingMass := a.danglingMass + danglingSum outEdges pageRanks [v]
        messagesSent := a.messagesSent || !dangling outEdges v } := by
  unfold vertexStep
  simp only [deliver, danglingSum, dangling, share, List.foldl_cons,
    List.foldl_nil, List.map_cons, List.map_nil, List.sum_cons, List.sum_nil, add_zero]
  by_cases h : outEdges.getD v [] = []
  · simp only [h]
    simp
  · obtain ⟨e, es, hes⟩ := List.exists_cons_of_ne_nil h
    simp only [hes]
    simp [foldl_add]

theorem par_foldl_vertexStep (n : Nat) (outEdges : List (List Nat)) (pageRanks : List ℚ)
    (inbox : List ℚ) (vs : List Nat) (a : Acc) :
    vs.foldl (vertexStep n outEdges pageRanks inbox) a =
      { nextPageRanks := vs.foldl (fun l v => l.set v
          ((1 - DAMPING) / n + DAMPING * inbox.getD v 0)) a.nextPageRanks
        outbox := deliver outEdges pageRanks vs a.outbox
        danglingMass := a.danglingMass + danglingSum outEdges pageRanks vs
        messagesSent := a.messagesSent || vs.any (fun v => !dangling outEdges v) } := by
  induction vs generalizing a with
  | nil => simp [deliver, danglingSum]
  | cons v vs ih =>
    rw [List.foldl_cons, ih, par_vertexStep_eq]
    simp [deliver, danglingSum, add_assoc, Bool.or_assoc]

theorem par_length_deliver (outEdges : List (List Nat)) (pageRanks : List ℚ) (vs : List Nat)
    (ob : List ℚ) : (deliver outEdges pageRanks vs ob).length = ob.length := by
  unfold deliver
  induction vs generalizing ob with
  | nil => rfl
  | cons v vs ih => rw [List.foldl_cons, ih, length_foldl_modify]

theorem getD_deliver (outEdges : List (List Nat)) (pageRanks : List ℚ) (vs : List Nat)
    (ob : List ℚ) (u : Nat) (hu : u < ob.length) :
    (deliver outEdges pageRanks vs ob).getD u 0 =
      ob.getD u 0 + sentTo outEdges pageRanks vs u := by
  unfold deliver sentTo
  induction vs generalizing ob with
  | nil => simp
  | cons v vs ih =>
    rw [List.foldl_cons, ih _ (by rw [length_foldl_modify]; exact hu),
      measure_getD_foldl_modify (fun y => y) _ (share outEdges pageRanks v)
        (fun _ => rfl) _ ob 0 u hu]
    simp [add_assoc]

theorem par_total_deliver (outEdges : List (List Nat)) (pageRanks : List ℚ) (vs : List Nat)
    (ob : List ℚ) (h : ∀ v ∈ vs, ∀ e ∈ outEdges.getD v [], e < ob.length) :
    (deliver outEdges pageRanks vs ob).sum =
      ob.sum + (vs.map (fun v => if dangling outEdges v then 0 else pageRanks.getD v 0)).sum := by
  unfold deliver
  induction vs generalizing ob with
  | nil => simp
  | cons v vs ih =>
    have key := sum_map_foldl_modify (fun y => y) (fun y => y + share outEdges pageRanks v)
      (share outEdges pageRanks v) (fun _ => rfl) (outEdges.getD v []) ob
      (h v (List.mem_cons_self _ _))
    simp only [List.map_id'] at key
    rw [List.foldl_cons, ih, key, length_mul_share]
    · simp [add_assoc]
    · intro v' hv' e he
      rw [length_foldl_modify]
      exact h v' (List.mem_cons_of_mem _ hv') e he

theorem par_superstep_eq (n : Nat) (outEdges : List (List Nat)) (order : List Nat × List Nat)
    (h1 : order.1.Perm (List.range n)) (h2 : order.2.Perm (List.range n)) (s : State)
    (hnext : s.nextPageRanks.length = n) :
    superstep n outEdges order s =
      { pageRanks := (List.range n).map (fun v =>
          (1 - DAMPING) / n + DAMPING * s.inbox.getD v 0
            + DAMPING * danglingSum outEdges s.pageRanks (List.range n) / n)
        nextPageRanks := s.pageRanks.map (fun _ => 0)
        inbox := deliver outEdges s.pageRanks order.1 (s.outbox.map (fun _ => 0))
        outbox := s.inbox
        messagesSent := (List.range n).any (fun v => !dangling outEdges v) } := by
  unfold superstep
  simp only [par_foldl_vertexStep, zero_add, Bool.false_or]
  rw [foldl_set_of_perm _ n _ h1 _ hnext, foldl_modify_of_perm _ n _ h2 _ (by simp),
    List.map_map, danglingSum_perm outEdges s.pageRanks h1, any_perm h1]
  rfl

end Parallel

end PageRank

/-! ## The superstep loop of the sequential back end -/

namespace PageRank

theorem map_eq_range_map {α β : Type} (f : α → β) (d : α) (g : Nat → β) (n : Nat)
    (l : List α) (hl : l.length = n) (h : ∀ u, u < n → f (l.getD u d) = g u) :
    l.map f = (List.range n).map g := by
  apply List.ext_getElem?
  intro i
  by_cases hi : i < n
  · have hi' : i < l.length := by omega
    have := h i hi
    rw [List.getD_eq_getElem?_getD, List.getElem?_eq_getElem hi'] at this
    simp [List.getElem?_eq_getElem hi', List.getElem?_range hi, ← this]
  · have h1 : l[i]? = none := List.getElem?_eq_none (by omega)
    have h2 : (List.range n)[i]? = none := List.getElem?_eq_none (by simp; omega)
    simp [h1, h2]

theorem sum_map_filter {α : Type} (p : α → Bool) (f : α → ℚ) (l : List α) :
    ((l.filter p).map f).sum = (l.map (fun x => if p x then f x else 0)).sum := by
  induction l with
  | nil => rfl
  | cons a l ih =>
    by_cases h : p a = true
    · simp [List.filter_cons, h, ih]
    · simp [List.filter_cons, h, ih]

theorem sum_range_getD (l : List ℚ) :
    ((List.range l.length).map (fun v => l.getD v 0)).sum = l.sum := by
  have : (List.range l.length).map (fun v => l.getD v 0) = l := by
    apply List.ext_getElem?
    intro i
    by_cases hi : i < l.length
    · simp [List.getElem?_range hi, List.getElem?_eq_getElem hi]
    · have h1 : l[i]? = none := List.getElem?_eq_none (by omega)
      have h2 : (List.range l.length)[i]? = none := List.getElem?_eq_none (by simp; omega)
      simp [h1, h2]
  rw [this]

namespace Sequential

theorem seq_init_inv (n : Nat) : Inv n (init n) := by
  simp [Inv, init]

theorem superstep_inv (n : Nat) (outEdges : List (List Nat)) (s : State) (h : Inv n s) :
    Inv n (superstep n outEdges s) := by
  obtain ⟨h1, h2, h3, h4⟩ := h
  rw [seq_superstep_eq n outEdges s h2]
  refine ⟨by simp, by simp [h1], ?_, ?_⟩
  · simp [seq_length_deliver, h4]
  · simp only [List.map_const', h3]

theorem loop_of_not_sent (n : Nat) (outEdges : List (List Nat)) (k : Nat) (s : State)
    (h : s.messagesSent = false) : loop n outEdges k s = s := by
  cases k with
  | zero => rfl
  | succ k => simp [loop, h]

theorem loop_succ_of_sent (n : Nat) (outEdges : List (List Nat)) (k : Nat) (s : State)
    (h : s.messagesSent = true) :
    loop n outEdges (k + 1) s = loop n outEdges k (superstep n outEdges s) := by
  simp [loop, h]

theorem iterate_inv (n : Nat) (outEdges : List (List Nat)) (k : Nat) :
    Inv n ((superstep n outEdges)^[k] (init n)) := by
  induction k with
  | zero => exact seq_init_inv n
  | succ k ih =>
    rw [Function.iterate_succ_apply']
    exact superstep_inv n outEdges _ ih

theorem messagesSent_iterate (n : Nat) (outEdges : List (List Nat))
    (hedge : (List.range n).any (fun v => !dangling outEdges v) = true) (k : Nat) :
    ((superstep n outEdges)^[k] (init n)).messagesSent = true := by
  cases k with
  | zero => rfl
  | succ k =>
    rw [Function.iterate_succ_apply', seq_superstep_eq n outEdges _ (iterate_inv n outEdges k).2.1]
    exact hedge

/-- With at least one edge the loop never stops early: the budget is used up. -/
theorem loop_eq_iterate (n : Nat) (outEdges : List (List Nat))
    (hedge : (List.range n).any (fun v => !dangling outEdges v) = true) (k j : Nat) :
    loop n outEdges k ((superstep n outEdges)^[j] (init n)) =
      (superstep n outEdges)^[j + k] (init n) := by
  induction k generalizing j with
  | zero => rfl
  | succ k ih =>
    rw [loop_succ_of_sent n outEdges k _ (messagesSent_iterate n outEdges hedge j),
      ← Function.iterate_succ_apply' (superstep n outEdges) j, ih (j + 1)]
    congr 1
    omega

end Sequential

end PageRank

/-! ## The sequential back end computes the lagged recurrence -/

namespace PageRank

namespace Spec

theorem d_eq_DAMPING : d = DAMPING := rfl

theorem sum_danglingVertices (n : Nat) (outEdges : List (List Nat)) (r : List ℚ) :
    ((danglingVertices n outEdges).map (fun u => r.getD u 0)).sum =
      danglingSum outEdges r (List.range n) := by
  unfold danglingVertices danglingSum
  rw [sum_map_filter]
  congr 1
  apply List.map_congr_left
  intro v _
  unfold outDegree dangling
  cases outEdges.getD v [] <;> simp

theorem sum_edges_from (outEdges : List (List Nat)) (r : List ℚ) (u v : Nat) (es : List Nat) :
    (((es.map (fun w => (u, w))).filter (fun e => decide (e.2 = v))).map
        (fun e => r.getD e.1 0 / (outDegree outEdges e.1 : ℚ))).sum =
      (es.map (fun e => if e = v then r.getD u 0 / (outDegree outEdges u : ℚ) else 0)).sum := by
  rw [sum_map_filter, List.map_map]
  congr 1
  apply List.map_congr_left
  intro e _
  simp

theorem sum_edgeOccurrences (outEdges : List (List Nat)) (r : List ℚ) (v : Nat)
    (vs : List Nat) :
    (((vs.flatMap (fun u => (outEdges.getD u []).map (fun w => (u, w)))).filter
        (fun e => decide (e.2 = v))).map
        (fun e => r.getD e.1 0 / (outDegree outEdges e.1 : ℚ))).sum =
      sentTo outEdges r vs v := by
  unfold sentTo
  induction vs with
  | nil => rfl
  | cons u vs ih =>
    rw [List.flatMap_cons, List.filter_append, List.map_append, List.sum_append, ih,
      sum_edges_from]
    simp [share, outDegree]

end Spec

namespace Sequential

/-- State reached after `k` supersteps, in terms of the recurrence. -/
theorem iterate_eq_lagged (n : Nat) (outEdges : List (List Nat)) (k : Nat) :
    ((superstep n outEdges)^[k] (init n)).pageRanks = (Spec.lagged n outEdges k).1 ∧
    ((superstep n outEdges)^[k] (init n)).inbox.map List.sum = (Spec.lagged n outEdges k).2 := by
  induction k with
  | zero => simp [init, Spec.lagged]
  | succ k ih =>
    have hinv := iterate_inv n outEdges k
    obtain ⟨h1, h2, h3, h4⟩ := hinv
    rw [Function.iterate_succ_apply', seq_superstep_eq n outEdges _ h2]
    simp only [Spec.lagged]
    constructor
    · apply List.map_congr_left
      intro v _
      rw [Spec.sum_danglingVertices, ← ih.1, ← ih.2, Spec.d_eq_DAMPING]
      have hget : ∀ l : List (List ℚ), (l.getD v []).sum = (l.map List.sum).getD v 0 := by
        intro l
        rw [List.getD_eq_getElem?_getD, List.getD_eq_getElem?_getD, List.getElem?_map]
        cases l[v]? <;> simp
      rw [hget]
    · apply map_eq_range_map List.sum [] _ n _ (by rw [seq_length_deliver, h4]; simp)
      intro u hu
      rw [sum_getD_deliver _ _ _ _ _ (by rw [h4]; simpa using hu), ← ih.1, h4]
      unfold Spec.edgeOccurrences
      rw [Spec.sum_edgeOccurrences]
      simp

/-- A graph with an edge has a vertex that is not dangling. -/
theorem any_not_dangling (n : Nat) (outEdges : List (List Nat)) (hlen : outEdges.length = n)
    (hedge : ∃ es ∈ outEdges, es ≠ []) :
    (List.range n).any (fun v => !dangling outEdges v) = true := by
  obtain ⟨es, hes, hne⟩ := hedge
  obtain ⟨i, hi, rfl⟩ := List.getElem_of_mem hes
  rw [List.any_eq_true]
  refine ⟨i, by simpa [hlen] using hi, ?_⟩
  unfold dangling
  rw [List.getD_eq_getElem?_getD, List.getElem?_eq_getElem hi]
  cases h : outEdges[i] with
  | nil => exact absurd h hne
  | cons a l => rfl

theorem run_eq_iterate (n : Nat) (outEdges : List (List Nat)) (hlen : outEdges.length = n)
    (hedge : ∃ es ∈ outEdges, es ≠ []) (maxSupersteps : Int) :
    run n outEdges maxSupersteps = (superstep n outEdges)^[maxSupersteps.toNat] (init n) := by
  have := loop_eq_iterate n outEdges (any_not_dangling n outEdges hlen hedge)
    maxSupersteps.toNat 0
  simpa [run] using this

end Sequential

/-- C1: on a graph with `n` vertices, all destinations in `[0, n)` and at least one edge, the
sequential `rankPages` with budget `B >= 0` returns `r_B` of the lagged recurrence
`r_0 = 1/n`, `m_0 = 0`, `r_{s+1}[v] = (1-d)/n + d*m_s[v] + d*(dangling mass of r_s)/n`,
`m_{s+1}[v] = sum over the edge occurrences u->v of r_s[u]/outDegree(u)`, with `d = 0.85`. -/
theorem sequential_rankPages_eq_lagged (pageIds : List (String × Nat))
    (pageNames : List String) (outEdges : List (List Nat)) (B : Nat)
    (hwf : WellFormed pageIds.length outEdges) (hedge : ∃ es ∈ outEdges, es ≠ []) :
    Sequential.rankPages pageIds pageNames outEdges (B : Int) =
      (Spec.lagged pageIds.length outEdges B).1 := by
  unfold Sequential.rankPages
  rw [Sequential.run_eq_iterate _ _ hwf.1 hedge, Int.toNat_natCast]
  exact (Sequential.iterate_eq_lagged _ _ _).1

/-- Witness of C1: the graph of the records `A B C`, `B C`, `C A` with budget 2, where the
recurrence gives `r_2 = [1/3, 23/120, 19/40]`. -/
theorem sequential_rankPages_eq_lagged_witness :
    Sequential.rankPages [("A", 0), ("B", 1), ("C", 2)] ["A", "B", "C"] [[1, 2], [2], [0]]
        ((2 : Nat) : Int) =
      (Spec.lagged 3 [[1, 2], [2], [0]] 2).1 ∧
    (Spec.lagged 3 [[1, 2], [2], [0]] 2).1 = [1 / 3, 23 / 120, 19 / 40] := by
  refine ⟨sequential_rankPages_eq_lagged [("A", 0), ("B", 1), ("C", 2)] ["A", "B", "C"]
    [[1, 2], [2], [0]] 2 (by decide) (by decide), ?_⟩
  simp [Spec.lagged, Spec.edgeOccurrences, Spec.danglingVertices, Spec.outDegree, Spec.d,
    List.range, List.range.loop, List.flatMap, List.filter]
  norm_num

end PageRank

/-! ## First superstep: graphs without dangling vertex, graphs without edge -/

namespace PageRank

theorem dangling_eq_false (outEdges : List (List Nat)) (hnd : ∀ es ∈ outEdges, es ≠ [])
    (v : Nat) (hv : v < outEdges.length) : dangling outEdges v = false := by
  unfold dangling
  rw [List.getD_eq_getElem?_getD, List.getElem?_eq_getElem hv]
  have := hnd _ (List.getElem_mem hv)
  cases h : outEdges[v] with
  | nil => exact absurd h this
  | cons a l => rfl

theorem dangling_eq_true (outEdges : List (List Nat)) (hd : ∀ es ∈ outEdges, es = [])
    (v : Nat) : dangling outEdges v = true := by
  unfold dangling
  rw [List.getD_eq_getElem?_getD]
  by_cases hv : v < outEdges.length
  · rw [List.getElem?_eq_getElem hv]
    simp [hd _ (List.getElem_mem hv)]
  · rw [List.getElem?_eq_none (by omega)]
    rfl

theorem danglingSum_eq_zero (outEdges : List (List Nat)) (pageRanks : List ℚ) (vs : List Nat)
    (h : ∀ v ∈ vs, dangling outEdges v = false) : danglingSum outEdges pageRanks vs = 0 := by
  unfold danglingSum
  induction vs with
  | nil => rfl
  | cons v vs ih =>
    simp only [List.map_cons, List.sum_cons, h v (List.mem_cons_self _ _),
      Bool.false_eq_true, if_false, zero_add]
    exact ih (fun w hw => h w (List.mem_cons_of_mem _ hw))

theorem danglingSum_all (outEdges : List (List Nat)) (pageRanks : List ℚ)
    (hd : ∀ es ∈ outEdges, es = []) :
    danglingSum outEdges pageRanks (List.range pageRanks.length) = pageRanks.sum := by
  unfold danglingSum
  simp only [dangling_eq_true outEdges hd, if_true]
  exact sum_range_getD pageRanks

theorem getD_replicate_nil_sum (n v : Nat) :
    ((List.replicate n ([] : List ℚ)).getD v []).sum = 0 := by
  rw [List.getD_eq_getElem?_getD, List.getElem?_replicate]
  split <;> rfl

namespace Sequential

/-- With a budget of at least one superstep the loop executes the first superstep. -/
theorem run_of_pos (n : Nat) (outEdges : List (List Nat)) (B : Int) (hB : 1 ≤ B) :
    run n outEdges B = loop n outEdges (B.toNat - 1) (superstep n outEdges (init n)) := by
  unfold run
  obtain ⟨k, hk⟩ : ∃ k, B.toNat = k + 1 := ⟨B.toNat - 1, by omega⟩
  rw [hk, loop_succ_of_sent n outEdges k _ rfl]
  rfl

theorem superstep_init_no_dangling (n : Nat) (outEdges : List (List Nat))
    (hn : 1 ≤ n) (hlen : outEdges.length = n) (hnd : ∀ es ∈ outEdges, es ≠ []) :
    (superstep n outEdges (init n)).pageRanks = List.replicate n ((1 - DAMPING) / n) ∧
    (superstep n outEdges (init n)).messagesSent = true := by
  rw [seq_superstep_eq n outEdges _ (seq_init_inv n).2.1]
  constructor
  · have hz : danglingSum outEdges (init n).pageRanks (List.range n) = 0 :=
      danglingSum_eq_zero _ _ _ (fun v hv =>
        dangling_eq_false outEdges hnd v (by rw [hlen]; exact List.mem_range.mp hv))
    simp only [hz]
    simp only [init, getD_replicate_nil_sum]
    simp
  · apply any_not_dangling n outEdges hlen
    have h0 : 0 < outEdges.length := by omega
    exact ⟨outEdges[0], List.getElem_mem h0, hnd _ (List.getElem_mem h0)⟩

theorem superstep_init_all_dangling (n : Nat) (outEdges : List (List Nat))
    (hn : 1 ≤ n) (hd : ∀ es ∈ outEdges, es = []) :
    (superstep n outEdges (init n)).pageRanks = List.replicate n (1 / (n : ℚ)) ∧
    (superstep n outEdges (init n)).messagesSent = false := by
  rw [seq_superstep_eq n outEdges _ (seq_init_inv n).2.1]
  constructor
  · have hs : danglingSum outEdges (init n).pageRanks (List.range n) = 1 := by
      have h := danglingSum_all outEdges (init n).pageRanks hd
      rw [(seq_init_inv n).1] at h
      rw [h]
      have hn0 : (n : ℚ) ≠ 0 := by exact_mod_cast (by omega : n ≠ 0)
      simp [init, List.sum_replicate, hn0]
    have hn0 : (n : ℚ) ≠ 0 := by exact_mod_cast (by omega : n ≠ 0)
    simp only [hs]
    simp only [init, getD_replicate_nil_sum]
    rw [List.map_const', List.length_range]
    congr 1
    field_simp
  · rw [Bool.eq_false_iff]
    intro h
    obtain ⟨v, _, hv⟩ := List.any_eq_true.mp h
    simp [dangling_eq_true outEdges hd v] at hv

end Sequential

/-- C2: on a graph with `n >= 1` vertices, none of them dangling, the sequential `rankPages`
with `maxSupersteps = 1` returns `(1 - 0.85)/n` for every vertex, and `messagesSent` is true in
that superstep. -/
theorem sequential_one_superstep_no_dangling (pageIds : List (String × Nat))
    (pageNames : List String) (outEdges : List (List Nat))
    (hn : 1 ≤ pageIds.length) (hlen : outEdges.length = pageIds.length)
    (hnd : ∀ es ∈ outEdges, es ≠ []) :
    Sequential.rankPages pageIds pageNames outEdges 1 =
      List.replicate pageIds.length ((1 - 0.85) / (pageIds.length : ℚ)) ∧
    (Sequential.run pageIds.length outEdges 1).messagesSent = true := by
  unfold Sequential.rankPages
  rw [Sequential.run_of_pos _ _ 1 (le_refl 1)]
  exact Sequential.superstep_init_no_dangling _ outEdges hn hlen hnd

/-- Witness of C2 (end-to-end example A): the records `A B C`, `B C`, `C A` ingested by
`loadInput` give `n = 3` and, with `maxSupersteps = 1`, every rank `0.05`. -/
theorem sequential_one_superstep_no_dangling_witness :
    Sequential.loadInput [["A", "B", "C"], ["B", "C"], ["C", "A"]] Sequential.Containers.empty
      = ⟨[("A", 0), ("B", 1), ("C", 2)], ["A", "B", "C"], [[1, 2], [2], [0]]⟩ ∧
    Sequential.rankPages [("A", 0), ("B", 1), ("C", 2)] ["A", "B", "C"] [[1, 2], [2], [0]] 1
      = [0.05, 0.05, 0.05] ∧
    (Sequential.run 3 [[1, 2], [2], [0]] 1).messagesSent = true := by
  have h := sequential_one_superstep_no_dangling [("A", 0), ("B", 1), ("C", 2)]
    ["A", "B", "C"] [[1, 2], [2], [0]] (by decide) (by decide) (by decide)
  refine ⟨by decide, ?_, h.2⟩
  rw [h.1]
  norm_num [List.replicate]

/-- C3: on a graph with `n >= 1` vertices that are all dangling, the sequential `rankPages`
returns `1/n` for every vertex, whatever the budget `maxSupersteps >= 1`. -/
theorem sequential_all_dangling (pageIds : List (String × Nat))
    (pageNames : List String) (outEdges : List (List Nat)) (maxSupersteps : Int)
    (hn : 1 ≤ pageIds.length) (_hlen : outEdges.length = pageIds.length)
    (hd : ∀ es ∈ outEdges, es = []) (hB : 1 ≤ maxSupersteps) :
    Sequential.rankPages pageIds pageNames outEdges maxSupersteps =
      List.replicate pageIds.length (1 / (pageIds.length : ℚ)) := by
  unfold Sequential.rankPages
  have h := Sequential.superstep_init_all_dangling pageIds.length outEdges hn hd
  rw [Sequential.run_of_pos _ _ _ hB, Sequential.loop_of_not_sent _ _ _ _ h.2]
  exact h.1

/-- Witness of C3 (end-to-end example B): the single record `X` gives one dangling vertex,
and `maxSupersteps = 5` returns the rank `1`. -/
theorem sequential_all_dangling_witness :
    Sequential.loadInput [["X"]] Sequential.Containers.empty = ⟨[("X", 0)], ["X"], [[]]⟩ ∧
    Sequential.rankPages [("X", 0)] ["X"] [[]] 5 = [1] := by
  refine ⟨by decide, ?_⟩
  rw [sequential_all_dangling [("X", 0)] ["X"] [[]] 5 (by decide) (by decide) (by decide)
    (by decide)]
  norm_num [List.replicate]

end PageRank

/-! ## Mass balance of one superstep -/

namespace PageRank

theorem wellFormed_getD (n : Nat) (outEdges : List (List Nat)) (hwf : WellFormed n outEdges)
    (v : Nat) : ∀ e ∈ outEdges.getD v [], e < n := by
  intro e he
  rw [List.getD_eq_getElem?_getD] at he
  by_cases hv : v < outEdges.length
  · rw [List.getElem?_eq_getElem hv] at he
    exact hwf.2 _ (List.getElem_mem hv) e he
  · rw [List.getElem?_eq_none (by omega)] at he
    simp at he

theorem sum_not_dangling (outEdges : List (List Nat)) (hnd : ∀ es ∈ outEdges, es ≠ [])
    (pageRanks : List ℚ) (hlen : pageRanks.length = outEdges.length) :
    ((List.range outEdges.length).map
      (fun v => if dangling outEdges v then 0 else pageRanks.getD v 0)).sum = pageRanks.sum := by
  rw [← sum_range_getD pageRanks, hlen]
  congr 1
  apply List.map_congr_left
  intro v hv
  rw [dangling_eq_false outEdges hnd v (List.mem_range.mp hv)]
  rfl

theorem sum_map_range_affine (n : Nat) (a b c : ℚ) (g : Nat → ℚ) :
    ((List.range n).map (fun v => a + c * g v + b)).sum =
      n * a + c * ((List.range n).map g).sum + n * b := by
  induction n with
  | zero => simp
  | succ n ih =>
    simp only [List.range_succ, List.map_append, List.sum_append, ih, List.map_cons,
      List.map_nil, List.sum_cons, List.sum_nil]
    push_cast
    ring

theorem sum_range_getD_sum (inbox : List (List ℚ)) :
    ((List.range inbox.length).map (fun v => (inbox.getD v []).sum)).sum =
      (inbox.map List.sum).sum := by
  rw [← map_eq_range_map List.sum [] (fun v => (inbox.getD v []).sum) inbox.length inbox rfl
    (fun _ _ => rfl)]

namespace Sequential

/-- Total mass pushed into the outbox by one superstep on a graph without dangling vertex:
the undamped sum of the current ranks. -/
theorem seq_total_outbox (n : Nat) (outEdges : List (List Nat)) (hwf : WellFormed n outEdges)
    (hnd : ∀ es ∈ outEdges, es ≠ []) (s : State) (hs : Inv n s) :
    ((superstep n outEdges s).inbox.map List.sum).sum = s.pageRanks.sum := by
  obtain ⟨h1, h2, h3, h4⟩ := hs
  rw [seq_superstep_eq n outEdges s h2]
  simp only
  rw [seq_total_deliver outEdges s.pageRanks (List.range n) s.outbox
    (fun v _ e he => by rw [h4, List.length_replicate]; exact wellFormed_getD n outEdges hwf v e he)]
  have := sum_not_dangling outEdges hnd s.pageRanks (by rw [h1, hwf.1])
  rw [hwf.1] at this
  rw [this, h4]
  simp

/-- Sum of the ranks after one superstep. -/
theorem sum_pageRanks_superstep (n : Nat) (hn : 1 ≤ n) (outEdges : List (List Nat)) (s : State)
    (hs : Inv n s) :
    (superstep n outEdges s).pageRanks.sum =
      (1 - DAMPING) + DAMPING * ((s.inbox.map List.sum).sum
        + danglingSum outEdges s.pageRanks (List.range n)) := by
  obtain ⟨h1, h2, h3, h4⟩ := hs
  rw [seq_superstep_eq n outEdges s h2]
  simp only
  rw [sum_map_range_affine, ← sum_range_getD_sum, h3]
  have hn0 : (n : ℚ) ≠ 0 := by exact_mod_cast (by omega : n ≠ 0)
  field_simp
  ring

end Sequential

namespace Parallel

/-- Total mass added into the scalar outbox by one superstep on a graph without dangling
vertex: the undamped sum of the current ranks. -/
theorem par_total_outbox (n : Nat) (outEdges : List (List Nat)) (hwf : WellFormed n outEdges)
    (hnd : ∀ es ∈ outEdges, es ≠ []) (order : List Nat × List Nat)
    (h1 : order.1.Perm (List.range n)) (h2 : order.2.Perm (List.range n))
    (s : State) (hs : Inv n s) :
    (superstep n outEdges order s).inbox.sum = s.pageRanks.sum := by
  obtain ⟨hp1, hp2, hp3, hp4⟩ := hs
  rw [par_superstep_eq n outEdges order h1 h2 s hp2]
  simp only
  rw [par_total_deliver outEdges s.pageRanks order.1 _
    (fun v _ e he => by
      rw [List.length_map, hp4]; exact wellFormed_getD n outEdges hwf v e he)]
  have := sum_not_dangling outEdges hnd s.pageRanks (by rw [hp1, hwf.1])
  rw [hwf.1] at this
  rw [(h1.map _).sum_eq, this]
  simp

end Parallel

/-- C5, as the code has it: on a graph with `n` vertices, destinations in `[0, n)` and no
dangling vertex, the values added to the outbox accumulator during one superstep total
`sum(currentRank)`, without the factor `d`: the damping is applied when the inbox is read.
This holds for the per-destination message lists of the sequential back end and for the
scalar cells of the shared-memory back end under every iteration order. -/
theorem outbox_total_eq_rank_sum (n : Nat) (outEdges : List (List Nat))
    (hwf : WellFormed n outEdges) (hnd : ∀ es ∈ outEdges, es ≠ [])
    (s : Sequential.State) (hs : Sequential.Inv n s)
    (order : List Nat × List Nat) (h1 : order.1.Perm (List.range n))
    (h2 : order.2.Perm (List.range n)) (p : Parallel.State) (hp : Parallel.Inv n p) :
    ((Sequential.superstep n outEdges s).inbox.map List.sum).sum = s.pageRanks.sum ∧
    (Parallel.superstep n outEdges order p).inbox.sum = p.pageRanks.sum :=
  ⟨Sequential.seq_total_outbox n outEdges hwf hnd s hs,
    Parallel.par_total_outbox n outEdges hwf hnd order h1 h2 p hp⟩

end PageRank

namespace PageRank

namespace Parallel

theorem par_init_inv (n : Nat) : Inv n (init n) := by
  simp [Inv, init]

end Parallel

/-- Witness of C5: the graph of the records `A B C`, `B C`, `C A` with the initial ranks,
the shared-memory loops running in the orders `2, 0, 1` and `1, 2, 0`. -/
theorem outbox_total_eq_rank_sum_witness :
    ((Sequential.superstep 3 [[1, 2], [2], [0]] (Sequential.init 3)).inbox.map List.sum).sum
      = (Sequential.init 3).pageRanks.sum ∧
    (Parallel.superstep 3 [[1, 2], [2], [0]] ([2, 0, 1], [1, 2, 0]) (Parallel.init 3)).inbox.sum
      = (Parallel.init 3).pageRanks.sum :=
  outbox_total_eq_rank_sum 3 [[1, 2], [2], [0]] (by decide) (by decide)
    (Sequential.init 3) (Sequential.seq_init_inv 3) ([2, 0, 1], [1, 2, 0]) (by decide) (by decide)
    (Parallel.init 3) (Parallel.par_init_inv 3)

/-- C5 as stated fails: on the graph of the records `A B C`, `B C`, `C A` (no dangling
vertex) with every current rank `1/3`, the outbox receives the total mass `1`, which is not
`0.85 * 1`. -/
theorem outbox_total_counterexample :
    ((Sequential.superstep 3 [[1, 2], [2], [0]] (Sequential.init 3)).inbox.map List.sum).sum
      ≠ 0.85 * (Sequential.init 3).pageRanks.sum := by
  rw [Sequential.seq_total_outbox 3 [[1, 2], [2], [0]] (by decide) (by decide) _
    (Sequential.seq_init_inv 3)]
  norm_num [Sequential.init, List.replicate]

namespace Sequential

theorem sum_init (n : Nat) (hn : 1 ≤ n) : (init n).pageRanks.sum = 1 := by
  have hn0 : (n : ℚ) ≠ 0 := by exact_mod_cast (by omega : n ≠ 0)
  simp [init, List.sum_replicate, hn0]

theorem sum_iterate_one (n : Nat) (hn : 1 ≤ n) (outEdges : List (List Nat))
    (hwf : WellFormed n outEdges) (hnd : ∀ es ∈ outEdges, es ≠ []) :
    ((superstep n outEdges)^[1] (init n)).pageRanks.sum = 1 - DAMPING := by
  rw [Function.iterate_one, sum_pageRanks_superstep n hn outEdges _ (seq_init_inv n),
    danglingSum_eq_zero _ _ _ (fun v hv =>
      dangling_eq_false outEdges hnd v (by rw [hwf.1]; exact List.mem_range.mp hv))]
  simp [init]

theorem sum_iterate_add_two (n : Nat) (hn : 1 ≤ n) (outEdges : List (List Nat))
    (hwf : WellFormed n outEdges) (hnd : ∀ es ∈ outEdges, es ≠ []) (k : Nat) :
    ((superstep n outEdges)^[k + 2] (init n)).pageRanks.sum =
      (1 - DAMPING) + DAMPING * ((superstep n outEdges)^[k] (init n)).pageRanks.sum := by
  rw [Function.iterate_succ_apply',
    sum_pageRanks_superstep n hn outEdges _ (iterate_inv n outEdges (k + 1)),
    danglingSum_eq_zero _ _ _ (fun v hv =>
      dangling_eq_false outEdges hnd v (by rw [hwf.1]; exact List.mem_range.mp hv)),
    Function.iterate_succ_apply',
    seq_total_outbox n outEdges hwf hnd _ (iterate_inv n outEdges k), add_zero]

/-- Without dangling vertex the ranks sum to `1` after an even number of supersteps and to
`1 - d^(k+1)` after `2k+1` supersteps. -/
theorem sum_iterate_no_dangling (n : Nat) (hn : 1 ≤ n) (outEdges : List (List Nat))
    (hwf : WellFormed n outEdges) (hnd : ∀ es ∈ outEdges, es ≠ []) (k : Nat) :
    ((superstep n outEdges)^[2 * k] (init n)).pageRanks.sum = 1 ∧
    ((superstep n outEdges)^[2 * k + 1] (init n)).pageRanks.sum = 1 - DAMPING ^ (k + 1) := by
  induction k with
  | zero =>
    refine ⟨sum_init n hn, ?_⟩
    rw [sum_iterate_one n hn outEdges hwf hnd]
    simp
  | succ k ih =>
    have e1 : 2 * (k + 1) = 2 * k + 2 := by ring
    have e2 : 2 * k + 2 + 1 = (2 * k + 1) + 2 := by ring
    rw [e1, e2, sum_iterate_add_two n hn outEdges hwf hnd, ih.1,
      sum_iterate_add_two n hn outEdges hwf hnd, ih.2]
    constructor <;> ring

theorem exists_edge_of_no_dangling (n : Nat) (hn : 1 ≤ n) (outEdges : List (List Nat))
    (hlen : outEdges.length = n) (hnd : ∀ es ∈ outEdges, es ≠ []) :
    ∃ es ∈ outEdges, es ≠ [] := by
  have h0 : 0 < outEdges.length := by omega
  exact ⟨outEdges[0], List.getElem_mem h0, hnd _ (List.getElem_mem h0)⟩

end Sequential

/-- C4 as stated fails (end-to-end example A): on the graph of the records `A B C`, `B C`,
`C A` with `maxSupersteps = 1` every rank is `0.05`, so the ranks sum to `0.15`, not `1`. -/
theorem sequential_rank_sum_counterexample :
    (Sequential.rankPages [("A", 0), ("B", 1), ("C", 2)] ["A", "B", "C"]
      [[1, 2], [2], [0]] 1).sum ≠ 1 := by
  unfold Sequential.rankPages
  rw [Sequential.run_of_pos _ _ 1 (le_refl 1)]
  have h := (Sequential.superstep_init_no_dangling 3 [[1, 2], [2], [0]] (by decide)
    (by decide) (by decide)).1
  simp only [List.length_cons, List.length_nil, Int.toNat_one, Nat.sub_self] at h ⊢
  rw [Sequential.loop, h]
  norm_num [List.replicate, DAMPING]

/-- C4, as the code has it: on a graph with `n >= 1` vertices and destinations in `[0, n)`,
the ranks after a superstep sum to `(1-d) + d*(mass read from the inbox + dangling mass of
the current ranks)`. Hence the ranks returned by the sequential `rankPages` sum to `1` for
every budget `>= 1` when all vertices are dangling; when no vertex is dangling they sum to
`1` for every even budget and to `1 - 0.85^(k+1)` for the budget `2k+1`. -/
theorem sequential_rank_sum (pageIds : List (String × Nat)) (pageNames : List String)
    (outEdges : List (List Nat)) (hn : 1 ≤ pageIds.length)
    (hwf : WellFormed pageIds.length outEdges) :
    (∀ s : Sequential.State, Sequential.Inv pageIds.length s →
      (Sequential.superstep pageIds.length outEdges s).pageRanks.sum =
        (1 - 0.85) + 0.85 * ((s.inbox.map List.sum).sum
          + danglingSum outEdges s.pageRanks (List.range pageIds.length))) ∧
    ((∀ es ∈ outEdges, es = []) → ∀ B : Int, 1 ≤ B →
      (Sequential.rankPages pageIds pageNames outEdges B).sum = 1) ∧
    ((∀ es ∈ outEdges, es ≠ []) → ∀ k : Nat,
      (Sequential.rankPages pageIds pageNames outEdges ((2 * k : Nat) : Int)).sum = 1 ∧
      (Sequential.rankPages pageIds pageNames outEdges ((2 * k + 1 : Nat) : Int)).sum
        = 1 - 0.85 ^ (k + 1)) := by
  refine ⟨fun s hs => Sequential.sum_pageRanks_superstep _ hn outEdges s hs, ?_, ?_⟩
  · intro hd B hB
    unfold Sequential.rankPages
    have h := Sequential.superstep_init_all_dangling pageIds.length outEdges hn hd
    rw [Sequential.run_of_pos _ _ _ hB, Sequential.loop_of_not_sent _ _ _ _ h.2, h.1]
    have hn0 : (pageIds.length : ℚ) ≠ 0 := by exact_mod_cast (by omega : pageIds.length ≠ 0)
    simp [List.sum_replicate, hn0]
  · intro hnd k
    have hedge := Sequential.exists_edge_of_no_dangling _ hn outEdges hwf.1 hnd
    unfold Sequential.rankPages
    rw [Sequential.run_eq_iterate _ _ hwf.1 hedge, Sequential.run_eq_iterate _ _ hwf.1 hedge,
      Int.toNat_natCast, Int.toNat_natCast]
    exact Sequential.sum_iterate_no_dangling _ hn outEdges hwf hnd k

/-- Witness of C4: the graph of the records `A B C`, `B C`, `C A`. -/
theorem sequential_rank_sum_witness :
    (Sequential.rankPages [("A", 0), ("B", 1), ("C", 2)] ["A", "B", "C"] [[1, 2], [2], [0]]
      ((2 * 1 : Nat) : Int)).sum = 1 ∧
    (Sequential.rankPages [("A", 0), ("B", 1), ("C", 2)] ["A", "B", "C"] [[1, 2], [2], [0]]
      ((2 * 1 + 1 : Nat) : Int)).sum = 1 - 0.85 ^ (1 + 1) :=
  (sequential_rank_sum [("A", 0), ("B", 1), ("C", 2)] ["A", "B", "C"] [[1, 2], [2], [0]]
    (by decide) (by decide)).2.2 (by decide) 1

end PageRank

/-! ## The distributed back end at the example graph -/

namespace PageRank

/-- C6 at its own example input (records `A B C`, `B C`, `C A`, `maxSupersteps = 1`,
one worker, and also two workers): the distributed `rankPages` gathers
`[1/3, 23/120, 19/40]`, because it adds the messages of the current superstep, while the
sequential `rankPages` returns `[1/20, 1/20, 1/20]`, its inbox still being empty. -/
theorem distributed_rankPages_at_example :
    Distributed.rankPages 1 [("A", 0), ("B", 1), ("C", 2)] ["A", "B", "C"]
        [[1, 2], [2], [0]] 1 = some [1 / 3, 23 / 120, 19 / 40] ∧
    Distributed.rankPages 2 [("A", 0), ("B", 1), ("C", 2)] ["A", "B", "C"]
        [[1, 2], [2], [0]] 1 = some [1 / 3, 23 / 120, 19 / 40] ∧
    Sequential.rankPages [("A", 0), ("B", 1), ("C", 2)] ["A", "B", "C"]
        [[1, 2], [2], [0]] 1 = [1 / 20, 1 / 20, 1 / 20] := by
  refine ⟨?_, ?_, ?_⟩
  · simp [Distributed.rankPages, Distributed.initWorker, Distributed.localN,
      Distributed.blockCount, Distributed.blockEnd, Distributed.blockStart,
      Distributed.verticesPerProcess, Distributed.loop, Distributed.superstep,
      Distributed.localPhase, Distributed.localStep, Distributed.allreduceSum,
      Distributed.gatherv, List.range, List.range.loop, DAMPING]
    norm_num
  · simp [Distributed.rankPages, Distributed.initWorker, Distributed.localN,
      Distributed.blockCount, Distributed.blockEnd, Distributed.blockStart,
      Distributed.verticesPerProcess, Distributed.loop, Distributed.superstep,
      Distributed.localPhase, Distributed.localStep, Distributed.allreduceSum,
      Distributed.gatherv, List.range, List.range.loop, DAMPING]
    norm_num
  · unfold Sequential.rankPages
    rw [Sequential.run_of_pos _ _ 1 (le_refl 1)]
    have h := (Sequential.superstep_init_no_dangling 3 [[1, 2], [2], [0]] (by decide)
      (by decide) (by decide)).1
    simp only [List.length_cons, List.length_nil, Int.toNat_one, Nat.sub_self] at h ⊢
    rw [Sequential.loop, h]
    norm_num [List.replicate, DAMPING]

end PageRank

/-! ## The shared-memory back end refines the sequential one -/

namespace PageRank

/-- The shared-memory state holds, cell by cell, the sums of the sequential message lists. -/
theorem rel_superstep (n : Nat) (outEdges : List (List Nat)) (order : List Nat × List Nat)
    (h1 : order.1.Perm (List.range n)) (h2 : order.2.Perm (List.range n))
    (s : Sequential.State) (p : Parallel.State)
    (hs : Sequential.Inv n s) (hp : Parallel.Inv n p)
    (hpr : p.pageRanks = s.pageRanks) (hin : p.inbox = s.inbox.map List.sum) :
    (Parallel.superstep n outEdges order p).pageRanks
        = (Sequential.superstep n outEdges s).pageRanks ∧
    (Parallel.superstep n outEdges order p).inbox
        = (Sequential.superstep n outEdges s).inbox.map List.sum ∧
    (Parallel.superstep n outEdges order p).messagesSent
        = (Sequential.superstep n outEdges s).messagesSent := by
  obtain ⟨s1, s2, s3, s4⟩ := hs
  obtain ⟨p1, p2, p3, p4⟩ := hp
  rw [Parallel.par_superstep_eq n outEdges order h1 h2 p p2, Sequential.seq_superstep_eq n outEdges s s2]
  refine ⟨?_, ?_, ?_⟩
  · simp only [hpr, hin]
    apply List.map_congr_left
    intro v _
    have hget : (s.inbox.map List.sum).getD v 0 = (s.inbox.getD v []).sum := by
      rw [List.getD_eq_getElem?_getD, List.getD_eq_getElem?_getD, List.getElem?_map]
      cases s.inbox[v]? <;> simp
    rw [hget]
  · simp only
    have hlen : (Parallel.deliver outEdges p.pageRanks order.1
        (p.outbox.map (fun _ => (0 : ℚ)))).length = n := by
      rw [Parallel.par_length_deliver, List.length_map, p4]
    rw [map_eq_range_map List.sum [] (fun u => sentTo outEdges s.pageRanks (List.range n) u) n
      _ (by rw [Sequential.seq_length_deliver, s4, List.length_replicate])
      (fun u hu => by
        rw [Sequential.sum_getD_deliver _ _ _ _ _ (by rw [s4, List.length_replicate]; exact hu),
          s4, getD_replicate_nil_sum, zero_add])]
    have := map_eq_range_map (fun y : ℚ => y) 0
      (fun u => sentTo outEdges s.pageRanks (List.range n) u) n _ hlen
      (fun u hu => by
        rw [Parallel.getD_deliver _ _ _ _ _ (by rw [List.length_map, p4]; exact hu), hpr,
          sentTo_perm outEdges s.pageRanks h1]
        simp)
    simpa using this
  · rfl

theorem rel_loop (n : Nat) (outEdges : List (List Nat)) (sched : Nat → List Nat × List Nat)
    (hsched : ∀ step, (sched step).1.Perm (List.range n) ∧ (sched step).2.Perm (List.range n))
    (k step : Nat) (s : Sequential.State) (p : Parallel.State)
    (hs : Sequential.Inv n s) (hp : Parallel.Inv n p)
    (hpr : p.pageRanks = s.pageRanks) (hin : p.inbox = s.inbox.map List.sum)
    (hms : p.messagesSent = s.messagesSent) :
    (Parallel.loop n outEdges sched k step p).pageRanks
      = (Sequential.loop n outEdges k s).pageRanks := by
  induction k generalizing step s p with
  | zero => exact hpr
  | succ k ih =>
    unfold Parallel.loop Sequential.loop
    rw [hms]
    by_cases h : s.messagesSent = true
    · simp only [h, if_true]
      obtain ⟨r1, r2, r3⟩ := rel_superstep n outEdges (sched step) (hsched step).1
        (hsched step).2 s p hs hp hpr hin
      refine ih (step + 1) _ _ (Sequential.superstep_inv n outEdges s hs) ?_ r1 r2 r3
      obtain ⟨p1, p2, p3, p4⟩ := hp
      rw [Parallel.par_superstep_eq n outEdges (sched step) (hsched step).1 (hsched step).2 p p2]
      refine ⟨by simp, by simp [p1], ?_, p3⟩
      simp [Parallel.par_length_deliver, p4]
    · simp only [h]
      exact hpr

/-- C7: on a graph with all destinations in `[0, n)`, the shared-memory `rankPages` (one scalar
accumulator per destination, the iterations of each parallel loop run in any order that visits
every vertex once) returns the rank vector of the sequential `rankPages` (one list of messages
per destination, summed on read), for every budget. -/
theorem parallel_rankPages_eq_sequential (sched : Nat → List Nat × List Nat)
    (pageIds : List (String × Nat)) (pageNames : List String) (outEdges : List (List Nat))
    (maxSupersteps : Int) (_hwf : WellFormed pageIds.length outEdges)
    (hsched : ∀ step, (sched step).1.Perm (List.range pageIds.length) ∧
      (sched step).2.Perm (List.range pageIds.length)) :
    Parallel.rankPages sched pageIds pageNames outEdges maxSupersteps =
      Sequential.rankPages pageIds pageNames outEdges maxSupersteps := by
  unfold Parallel.rankPages Sequential.rankPages Parallel.run Sequential.run
  exact rel_loop pageIds.length outEdges sched hsched _ 0 _ _
    (Sequential.seq_init_inv _) (Parallel.par_init_inv _) rfl (by simp [Parallel.init, Sequential.init])
    rfl

/-- Witness of C7: the graph of the records `A B C`, `B C`, `C A`, three supersteps, the
parallel loops running in the orders `2, 0, 1` and `1, 2, 0`. -/
theorem parallel_rankPages_eq_sequential_witness :
    Parallel.rankPages (fun _ => ([2, 0, 1], [1, 2, 0])) [("A", 0), ("B", 1), ("C", 2)]
        ["A", "B", "C"] [[1, 2], [2], [0]] 3 =
      Sequential.rankPages [("A", 0), ("B", 1), ("C", 2)] ["A", "B", "C"]
        [[1, 2], [2], [0]] 3 :=
  parallel_rankPages_eq_sequential (fun _ => ([2, 0, 1], [1, 2, 0]))
    [("A", 0), ("B", 1), ("C", 2)] ["A", "B", "C"] [[1, 2], [2], [0]] 3 (by decide)
    (fun _ => ⟨(by decide : [2, 0, 1].Perm (List.range 3)),
      (by decide : [1, 2, 0].Perm (List.range 3))⟩)

end PageRank

/-! ## Ingestion: labels and ids -/

namespace PageRank

theorem addLabel_eq_append (rid : List String) (s : String) :
    addLabel rid s = rid ++ [s].filter (fun x => decide (x ∉ rid)) := by
  unfold addLabel
  by_cases h : s ∈ rid <;> simp [h]

theorem foldl_addLabel (ts : List String) (acc : List String) :
    ts.foldl addLabel acc =
      acc ++ (Spec.firstOccurrences ts).filter (fun x => decide (x ∉ acc)) := by
  induction ts generalizing acc with
  | nil => simp [Spec.firstOccurrences]
  | cons t ts ih =>
    rw [List.foldl_cons, ih, Spec.firstOccurrences]
    unfold addLabel
    by_cases h : t ∈ acc
    · simp only [h, if_true, List.filter_cons, not_true_eq_false, decide_False,
        Bool.false_eq_true, if_false, List.filter_filter]
      congr 1
      apply List.filter_congr
      intro x _
      by_cases hx : x ∈ acc
      · simp [hx]
      · have : x ≠ t := fun e => hx (e ▸ h)
        simp [hx, this]
    · simp only [h, if_false, List.filter_cons, not_false_eq_true, decide_True, if_true,
        List.filter_filter, List.append_assoc, List.singleton_append]
      congr 2
      apply List.filter_congr
      intro x _
      by_cases hx : x ∈ acc
      · simp [hx]
      · by_cases hxt : x = t
        · simp [hxt]
        · simp [hx, hxt]

theorem mem_firstOccurrences (ts : List String) (s : String) :
    s ∈ Spec.firstOccurrences ts ↔ s ∈ ts := by
  induction ts with
  | nil => simp [Spec.firstOccurrences]
  | cons t ts ih =>
    simp only [Spec.firstOccurrences, List.mem_cons, List.mem_filter, ih]
    by_cases h : s = t
    · simp [h]
    · simp [h]

theorem nodup_firstOccurrences (ts : List String) : (Spec.firstOccurrences ts).Nodup := by
  induction ts with
  | nil => simp [Spec.firstOccurrences]
  | cons t ts ih =>
    rw [Spec.firstOccurrences, List.nodup_cons]
    refine ⟨?_, ih.filter _⟩
    simp [List.mem_filter]

/-- The labels of `firstOccurrences` stand in the order of their first occurrences. -/
theorem pairwise_firstOccurrences (ts : List String) :
    (Spec.firstOccurrences ts).Pairwise (fun a b => ts.indexOf a < ts.indexOf b) := by
  induction ts with
  | nil => simp [Spec.firstOccurrences]
  | cons t ts ih =>
    rw [Spec.firstOccurrences, List.pairwise_cons]
    constructor
    · intro b hb
      have hbt : b ≠ t := by simpa using (List.mem_filter.mp hb).2
      rw [List.indexOf_cons_self, List.indexOf_cons_ne _ (Ne.symm hbt)]
      exact Nat.succ_pos _
    · have hsub : ((Spec.firstOccurrences ts).filter (fun s => s != t)).Pairwise
          (fun a b => ts.indexOf a < ts.indexOf b) :=
        ih.sublist (List.filter_sublist _)
      refine hsub.imp_of_mem ?_
      intro a b ha hb hab
      have hat : a ≠ t := by simpa using (List.mem_filter.mp ha).2
      have hbt : b ≠ t := by simpa using (List.mem_filter.mp hb).2
      rw [List.indexOf_cons_ne _ (Ne.symm hat), List.indexOf_cons_ne _ (Ne.symm hbt)]
      exact Nat.succ_lt_succ hab

theorem addLabel_extends (rid : List String) (s : String) : rid <+: addLabel rid s := by
  rw [addLabel_eq_append]
  exact List.prefix_append _ _

theorem foldl_addLabel_extends (ts : List String) (acc : List String) :
    acc <+: ts.foldl addLabel acc := by
  rw [foldl_addLabel]
  exact List.prefix_append _ _

theorem mem_addLabel (rid : List String) (s : String) : s ∈ addLabel rid s := by
  unfold addLabel
  by_cases h : s ∈ rid <;> simp [h]

theorem indexOf_of_extends {l l' : List String} (h : l <+: l') (s : String) (hs : s ∈ l) :
    l'.indexOf s = l.indexOf s := by
  obtain ⟨r, rfl⟩ := h
  exact List.indexOf_append_of_mem hs

end PageRank

/-! ## Ingestion by the sequential `loadInput` -/

namespace PageRank

theorem getD_append_nil_slot (l : List (List Nat)) (x : Nat) :
    (l ++ [[]]).getD x [] = l.getD x [] := by
  rw [List.getD_eq_getElem?_getD, List.getD_eq_getElem?_getD]
  by_cases hx : x < l.length
  · rw [List.getElem?_append_left hx]
  · rw [List.getElem?_append_right (by omega), List.getElem?_eq_none (l := l) (by omega)]
    cases h : x - l.length <;> simp

theorem getD_modify_push (l : List (List Nat)) (u x v : Nat) (hu : u < l.length) :
    (l.modify (fun es => es ++ [v]) u).getD x [] =
      if x = u then l.getD u [] ++ [v] else l.getD x [] := by
  rw [List.getD_eq_getElem?_getD, List.getElem?_modify]
  by_cases h : u = x
  · subst h
    simp [List.getD_eq_getElem?_getD, List.getElem?_eq_getElem hu]
  · have h' : ¬ x = u := fun e => h e.symm
    simp [h, h', List.getD_eq_getElem?_getD]

namespace Sequential

theorem consistent_empty : Consistent Containers.empty := by
  simp [Consistent, Containers.empty]

theorem getId_spec (c : Containers) (hc : Consistent c) (s : String) :
    Consistent (getId c s).2 ∧ (getId c s).2.rid = addLabel c.rid s ∧
      (getId c s).1 = (getId c s).2.rid.indexOf s ∧
      ∀ x, (getId c s).2.outEdges.getD x [] = c.outEdges.getD x [] := by
  obtain ⟨h1, h2, h3⟩ := hc
  by_cases hs : s ∈ c.rid
  · have hl : c.id.lookup s = some (c.rid.indexOf s) := by rw [h3]; simp [hs]
    have hg : getId c s = (c.rid.indexOf s, c) := by simp only [getId, hl]
    have ha : addLabel c.rid s = c.rid := by simp [addLabel, hs]
    rw [hg, ha]
    exact ⟨⟨h1, h2, h3⟩, rfl, rfl, fun _ => rfl⟩
  · have hl : c.id.lookup s = none := by rw [h3]; simp [hs]
    have hg : getId c s = (c.id.length,
        { id := c.id ++ [(s, c.id.length)], rid := c.rid ++ [s],
          outEdges := c.outEdges ++ [[]] }) := by simp only [getId, hl]
    have ha : addLabel c.rid s = c.rid ++ [s] := by simp [addLabel, hs]
    rw [hg, ha]
    refine ⟨⟨by simp [h1], by simp [h2], ?_⟩, rfl, ?_, fun x => getD_append_nil_slot _ x⟩
    · intro x
      simp only
      rw [List.lookup_append, h3]
      by_cases hx : x ∈ c.rid
      · simp [hx, List.indexOf_append_of_mem hx]
      · by_cases hxs : x = s
        · subst hxs
          simp [hx, List.indexOf_append_of_not_mem hx, List.lookup, h1]
        · have : (x == s) = false := by simpa using hxs
          simp [hx, hxs, List.lookup, this]
    · simp [List.indexOf_append_of_not_mem hs, h1]

theorem readDest_spec (u : Nat) (c : Containers) (w0 : String) (hc : Consistent c)
    (hu : u < c.rid.length) (w : String) :
    Consistent (readDest u (c, w0) w).1 ∧
      (readDest u (c, w0) w).1.rid = addLabel c.rid w ∧
      ∀ x, (readDest u (c, w0) w).1.outEdges.getD x [] =
        if x = u then c.outEdges.getD u [] ++ [(addLabel c.rid w).indexOf w]
        else c.outEdges.getD x [] := by
  obtain ⟨g1, g2, g3, g4⟩ := getId_spec c hc w
  have hlen : u < (getId c w).2.outEdges.length := by
    rw [g1.2.1, g2]
    exact lt_of_lt_of_le hu (addLabel_extends c.rid w).length_le
  unfold readDest
  refine ⟨⟨g1.1, by simp [g1.2.1], g1.2.2⟩, g2, ?_⟩
  intro x
  simp only
  rw [getD_modify_push _ _ _ _ hlen, g4, g4, g3, g2]

theorem foldl_readDest (u : Nat) (t : List String) (c : Containers) (w0 : String)
    (hc : Consistent c) (hu : u < c.rid.length) :
    Consistent (t.foldl (readDest u) (c, w0)).1 ∧
      (t.foldl (readDest u) (c, w0)).1.rid = t.foldl addLabel c.rid ∧
      ∀ x, (t.foldl (readDest u) (c, w0)).1.outEdges.getD x [] =
        if x = u then
          c.outEdges.getD u [] ++ t.map (fun w => (t.foldl addLabel c.rid).indexOf w)
        else c.outEdges.getD x [] := by
  induction t generalizing c w0 with
  | nil => exact ⟨hc, rfl, fun x => by by_cases h : x = u <;> simp [h]⟩
  | cons w t ih =>
    obtain ⟨r1, r2, r3⟩ := readDest_spec u c w0 hc hu w
    have hu' : u < (readDest u (c, w0) w).1.rid.length := by
      rw [r2]
      exact lt_of_lt_of_le hu (addLabel_extends c.rid w).length_le
    obtain ⟨i1, i2, i3⟩ := ih (readDest u (c, w0) w).1 (readDest u (c, w0) w).2 r1 hu'
    simp only [List.foldl_cons]
    rw [r2] at i2 i3
    refine ⟨i1, i2, ?_⟩
    intro x
    rw [i3 x]
    by_cases hx : x = u
    · simp only [hx, if_true, r3 u, List.map_cons, List.append_assoc, List.singleton_append]
      rw [indexOf_of_extends (foldl_addLabel_extends t (addLabel c.rid w)) w (mem_addLabel c.rid w)]
    · simp only [hx, if_false, r3 x]

end Sequential

end PageRank

namespace PageRank

theorem slotOf_cons (ident : String → Nat) (r : List String) (P : List (List String))
    (x : Nat) :
    slotOf ident (r :: P) x =
      (if ident (r.headD "") = x then r.tail.map ident else []) ++ slotOf ident P x := by
  unfold slotOf
  rw [List.filter_cons]
  by_cases h : ident (r.headD "") = x
  · simp only [h, decide_True, if_true, List.flatMap_cons]
  · simp only [h, decide_False, Bool.false_eq_true, if_false, List.nil_append]

theorem slotOf_congr (f g : String → Nat) (P : List (List String))
    (hP : ∀ r ∈ P, r ≠ []) (h : ∀ r ∈ P, ∀ s ∈ r, f s = g s) (x : Nat) :
    slotOf f P x = slotOf g P x := by
  induction P with
  | nil => rfl
  | cons r P ih =>
    have hr : ∀ s ∈ r, f s = g s := h r (List.mem_cons_self _ _)
    have ih' := ih (fun r' hr' => hP r' (List.mem_cons_of_mem _ hr'))
      (fun r' hr' => h r' (List.mem_cons_of_mem _ hr'))
    rw [slotOf_cons, slotOf_cons, ih']
    obtain ⟨a, t, rfl⟩ := List.exists_cons_of_ne_nil (hP r (List.mem_cons_self _ _))
    have ha : f a = g a := hr a (List.mem_cons_self _ _)
    have ht : t.map f = t.map g :=
      List.map_congr_left (fun s hs => hr s (List.mem_cons_of_mem _ hs))
    simp only [List.headD_cons, List.tail_cons, ha, ht]

theorem mem_foldl_addLabel (ts : List String) (acc : List String) (s : String) :
    s ∈ ts.foldl addLabel acc ↔ s ∈ acc ∨ s ∈ ts := by
  rw [foldl_addLabel, List.mem_append, List.mem_filter, mem_firstOccurrences]
  by_cases h : s ∈ acc <;> simp [h]

namespace Sequential

theorem readLine_spec (c : Containers) (w0 : String) (hc : Consistent c) (a : String)
    (t : List String) :
    Consistent (readLine (c, w0) (a :: t)).1 ∧
      (readLine (c, w0) (a :: t)).1.rid = (a :: t).foldl addLabel c.rid ∧
      ∀ x, (readLine (c, w0) (a :: t)).1.outEdges.getD x [] =
        c.outEdges.getD x [] ++
          slotOf (fun s => (readLine (c, w0) (a :: t)).1.rid.indexOf s) [a :: t] x := by
  obtain ⟨g1, g2, g3, g4⟩ := getId_spec c hc a
  have hmem : a ∈ (getId c a).2.rid := by rw [g2]; exact mem_addLabel c.rid a
  have hu : (getId c a).1 < (getId c a).2.rid.length := by
    rw [g3]; exact List.indexOf_lt_length.mpr hmem
  obtain ⟨f1, f2, f3⟩ := foldl_readDest (getId c a).1 t (getId c a).2 a g1 hu
  have hrl : readLine (c, w0) (a :: t) =
      t.foldl (readDest (getId c a).1) ((getId c a).2, a) := rfl
  rw [hrl]
  rw [g2] at f2
  refine ⟨f1, f2, ?_⟩
  intro x
  rw [f3 x, slotOf_cons, g4, g4]
  have hidx : (t.foldl (readDest (getId c a).1) ((getId c a).2, a)).1.rid.indexOf a
      = (getId c a).1 := by
    rw [f2, g3, g2]
    exact indexOf_of_extends (foldl_addLabel_extends t _) a (mem_addLabel c.rid a)
  simp only [List.headD_cons, List.tail_cons, hidx]
  by_cases hx : x = (getId c a).1
  · subst hx
    simp [slotOf, f2, g2]
  · have hx' : ¬ (getId c a).1 = x := fun e => hx e.symm
    simp [hx, hx', slotOf]

theorem foldl_readLine (P : List (List String)) (hP : ∀ r ∈ P, r ≠ []) (c : Containers)
    (w0 : String) (hc : Consistent c) :
    Consistent (P.foldl readLine (c, w0)).1 ∧
      (P.foldl readLine (c, w0)).1.rid = P.flatten.foldl addLabel c.rid ∧
      ∀ x, (P.foldl readLine (c, w0)).1.outEdges.getD x [] =
        c.outEdges.getD x [] ++
          slotOf (fun s => (P.foldl readLine (c, w0)).1.rid.indexOf s) P x := by
  induction P generalizing c w0 with
  | nil => exact ⟨hc, rfl, fun x => by simp [slotOf]⟩
  | cons r P ih =>
    obtain ⟨a, t, rfl⟩ := List.exists_cons_of_ne_nil (hP _ (List.mem_cons_self _ _))
    obtain ⟨r1, r2, r3⟩ := readLine_spec c w0 hc a t
    obtain ⟨i1, i2, i3⟩ := ih (fun r' hr' => hP r' (List.mem_cons_of_mem _ hr'))
      (readLine (c, w0) (a :: t)).1 (readLine (c, w0) (a :: t)).2 r1
    simp only [List.foldl_cons, List.flatten_cons, List.foldl_append]
    rw [r2] at i2
    refine ⟨i1, i2, ?_⟩
    intro x
    rw [i3 x, r3 x, slotOf_cons _ (a :: t) P x, List.append_assoc]
    congr 1
    have hpre : (readLine (c, w0) (a :: t)).1.rid <+:
        (P.foldl readLine (readLine (c, w0) (a :: t))).1.rid := by
      rw [i2, r2]
      exact foldl_addLabel_extends _ _
    have hcongr := slotOf_congr
      (fun s => (readLine (c, w0) (a :: t)).1.rid.indexOf s)
      (fun s => (P.foldl readLine (readLine (c, w0) (a :: t))).1.rid.indexOf s)
      [a :: t] (by simp)
      (fun r' hr' s hs => by
        rw [List.mem_singleton] at hr'
        subst hr'
        exact (indexOf_of_extends hpre s
          (by rw [r2]; exact (mem_foldl_addLabel _ _ s).mpr (Or.inr hs))).symm) x
    rw [hcongr, slotOf_cons]
    simp [slotOf]

end Sequential

end PageRank

namespace PageRank

namespace Sequential

/-- What `loadInput` leaves in empty containers. -/
theorem loadInput_core (records : List (List String)) (hne : ∀ r ∈ records, r ≠ []) :
    Consistent (loadInput records Containers.empty) ∧
      (loadInput records Containers.empty).rid = Spec.firstOccurrences records.flatten ∧
      ∀ x, (loadInput records Containers.empty).outEdges.getD x [] =
        slotOf (fun s => (loadInput records Containers.empty).rid.indexOf s) records x := by
  obtain ⟨h1, h2, h3⟩ := foldl_readLine records hne Containers.empty "" consistent_empty
  refine ⟨h1, ?_, ?_⟩
  · show (records.foldl readLine (Containers.empty, "")).1.rid = _
    rw [h2, foldl_addLabel]
    simp [Containers.empty]
  · intro x
    show (records.foldl readLine (Containers.empty, "")).1.outEdges.getD x [] = _
    rw [h3 x]
    simp [Containers.empty, loadInput]

theorem idOf_eq_indexOf (c : Containers) (hc : Consistent c) (s : String) (hs : s ∈ c.rid) :
    idOf c s = c.rid.indexOf s := by
  unfold idOf
  rw [hc.2.2 s]
  simp [hs]

theorem slotOf_idOf (c : Containers) (hc : Consistent c) (records : List (List String))
    (hne : ∀ r ∈ records, r ≠ []) (hmem : ∀ r ∈ records, ∀ s ∈ r, s ∈ c.rid) (x : Nat) :
    slotOf (idOf c) records x = slotOf (fun s => c.rid.indexOf s) records x :=
  slotOf_congr _ _ records hne (fun r hr s hs => idOf_eq_indexOf c hc s (hmem r hr s hs)) x

theorem mem_slotOf (ident : String → Nat) (records : List (List String)) (x v : Nat)
    (hv : v ∈ slotOf ident records x) : ∃ r ∈ records, ∃ s ∈ r, v = ident s := by
  unfold slotOf at hv
  rw [List.mem_flatMap] at hv
  obtain ⟨r, hr, hv⟩ := hv
  rw [List.mem_map] at hv
  obtain ⟨s, hs, rfl⟩ := hv
  exact ⟨r, (List.mem_filter.mp hr).1, s, List.mem_of_mem_tail hs, rfl⟩

theorem slotOf_eq_nil (ident : String → Nat) (records : List (List String)) (x : Nat)
    (h : ∀ r ∈ records, ident (r.headD "") ≠ x) : slotOf ident records x = [] := by
  unfold slotOf
  have : records.filter (fun r => decide (ident (r.headD "") = x)) = [] := by
    rw [List.filter_eq_nil_iff]
    intro r hr
    simpa using h r hr
  rw [this]
  rfl

end Sequential

/-- C8: after `loadInput` on records with at least one token each, into empty containers, the
reverse table `rid` is the duplicate-free list of all labels in order of first occurrence in
the token stream, and the map `id` sends each label to its index in `rid`: the ids are dense
in `[0, n)` and `rid[id[s]] = s`. -/
theorem loadInput_labels (records : List (List String)) (hne : ∀ r ∈ records, r ≠ []) :
    (Sequential.loadInput records Sequential.Containers.empty).rid
        = Spec.firstOccurrences records.flatten ∧
    (Sequential.loadInput records Sequential.Containers.empty).rid.Nodup ∧
    (∀ s, s ∈ (Sequential.loadInput records Sequential.Containers.empty).rid
        ↔ s ∈ records.flatten) ∧
    (Sequential.loadInput records Sequential.Containers.empty).rid.Pairwise
        (fun a b => records.flatten.indexOf a < records.flatten.indexOf b) ∧
    (Sequential.loadInput records Sequential.Containers.empty).id.length
        = (Sequential.loadInput records Sequential.Containers.empty).rid.length ∧
    (∀ s ∈ records.flatten,
      (Sequential.loadInput records Sequential.Containers.empty).id.lookup s
        = some ((Sequential.loadInput records Sequential.Containers.empty).rid.indexOf s)) ∧
    (∀ s i, (Sequential.loadInput records Sequential.Containers.empty).id.lookup s = some i →
      i < (Sequential.loadInput records Sequential.Containers.empty).rid.length ∧
      (Sequential.loadInput records Sequential.Containers.empty).rid[i]? = some s) ∧
    (∀ i s, (Sequential.loadInput records Sequential.Containers.empty).rid[i]? = some s →
      (Sequential.loadInput records Sequential.Containers.empty).id.lookup s = some i) := by
  obtain ⟨hc, hrid, _⟩ := Sequential.loadInput_core records hne
  generalize Sequential.loadInput records Sequential.Containers.empty = c at hc hrid
  have hnd : c.rid.Nodup := hrid ▸ nodup_firstOccurrences _
  refine ⟨hrid, hnd, fun s => by rw [hrid]; exact mem_firstOccurrences _ s,
    hrid ▸ pairwise_firstOccurrences _, hc.1, ?_, ?_, ?_⟩
  · intro s hs
    have : s ∈ c.rid := by rw [hrid]; exact (mem_firstOccurrences _ s).mpr hs
    rw [hc.2.2 s]
    simp [this]
  · intro s i hi
    rw [hc.2.2 s] at hi
    by_cases hs : s ∈ c.rid
    · simp only [hs, if_true, Option.some.injEq] at hi
      subst hi
      have hlt : c.rid.indexOf s < c.rid.length := List.indexOf_lt_length.mpr hs
      exact ⟨hlt, by rw [List.getElem?_eq_getElem hlt, List.getElem_indexOf hlt]⟩
    · simp [hs] at hi
  · intro i s hi
    obtain ⟨hlt, rfl⟩ := List.getElem?_eq_some.mp hi
    rw [hc.2.2]
    simp [List.getElem_mem hlt, List.indexOf_getElem hnd]

/-- Witness of C8: three records with a repeated label and a self-loop. -/
theorem loadInput_labels_witness :
    (Sequential.loadInput [["A", "B", "B", "A"], ["C", "A"], ["D"]]
        Sequential.Containers.empty).rid
      = Spec.firstOccurrences [["A", "B", "B", "A"], ["C", "A"], ["D"]].flatten ∧
    (Sequential.loadInput [["A", "B", "B", "A"], ["C", "A"], ["D"]]
        Sequential.Containers.empty).rid = ["A", "B", "C", "D"] ∧
    (Sequential.loadInput [["A", "B", "B", "A"], ["C", "A"], ["D"]]
        Sequential.Containers.empty).id = [("A", 0), ("B", 1), ("C", 2), ("D", 3)] :=
  ⟨(loadInput_labels [["A", "B", "B", "A"], ["C", "A"], ["D"]] (by decide)).1,
    by decide, by decide⟩

end PageRank

namespace PageRank

namespace Sequential

theorem mem_rid_of_mem_records (records : List (List String)) (hne : ∀ r ∈ records, r ≠ [])
    (r : List String) (hr : r ∈ records) (s : String) (hs : s ∈ r) :
    s ∈ (loadInput records Containers.empty).rid := by
  rw [(loadInput_core records hne).2.1, mem_firstOccurrences]
  exact List.mem_flatten.mpr ⟨r, hr, hs⟩

/-- The out-edge slots after `loadInput`, in terms of the ids of the map. -/
theorem loadInput_slots (records : List (List String)) (hne : ∀ r ∈ records, r ≠ [])
    (x : Nat) :
    (loadInput records Containers.empty).outEdges.getD x [] =
      slotOf (idOf (loadInput records Containers.empty)) records x := by
  obtain ⟨hc, _, hslot⟩ := loadInput_core records hne
  rw [hslot x, slotOf_idOf _ hc records hne (mem_rid_of_mem_records records hne)]

theorem idOf_lt (records : List (List String)) (hne : ∀ r ∈ records, r ≠ [])
    (r : List String) (hr : r ∈ records) (s : String) (hs : s ∈ r) :
    idOf (loadInput records Containers.empty) s
      < (loadInput records Containers.empty).rid.length := by
  have hmem := mem_rid_of_mem_records records hne r hr s hs
  rw [idOf_eq_indexOf _ (loadInput_core records hne).1 s hmem]
  exact List.indexOf_lt_length.mpr hmem

theorem idOf_injOn (c : Containers) (hc : Consistent c) (s t : String) (hs : s ∈ c.rid)
    (ht : t ∈ c.rid) (h : idOf c s = idOf c t) : s = t := by
  rw [idOf_eq_indexOf c hc s hs, idOf_eq_indexOf c hc t ht] at h
  have h1 : c.rid.indexOf s < c.rid.length := List.indexOf_lt_length.mpr hs
  have h2 : c.rid.indexOf t < c.rid.length := List.indexOf_lt_length.mpr ht
  have e1 := List.getElem_indexOf h1
  have e2 := List.getElem_indexOf h2
  rw [← e1, ← e2]
  simp only [h]

/-- A label that is never a first token owns an empty slot. -/
theorem slot_of_never_source (records : List (List String)) (hne : ∀ r ∈ records, r ≠ [])
    (s : String) (hs : s ∈ records.flatten) (hsrc : ∀ r ∈ records, r.head? ≠ some s) :
    (loadInput records Containers.empty).outEdges.getD
      (idOf (loadInput records Containers.empty) s) [] = [] := by
  rw [loadInput_slots records hne]
  apply slotOf_eq_nil
  intro r hr heq
  obtain ⟨a, t, rfl⟩ := List.exists_cons_of_ne_nil (hne r hr)
  obtain ⟨r', hr', hs'⟩ := List.mem_flatten.mp hs
  have := idOf_injOn _ (loadInput_core records hne).1 a s
    (mem_rid_of_mem_records records hne _ hr a (List.mem_cons_self _ _))
    (mem_rid_of_mem_records records hne r' hr' s hs') heq
  exact hsrc _ hr (by simp [this])

end Sequential

/-- C9: after `loadInput` on records with at least one token each, into empty containers,
`outEdges` has exactly `n` slots (`n` the number of distinct labels), and the slot of every
vertex `u` is the concatenation, in input order, of the destination ids of the records whose
source is `u`, duplicates and self-loops kept; every stored destination is `< n`, and a label
that never appears as a first token has an empty slot. -/
theorem loadInput_outEdges (records : List (List String)) (hne : ∀ r ∈ records, r ≠ []) :
    (Sequential.loadInput records Sequential.Containers.empty).outEdges.length
        = (Spec.firstOccurrences records.flatten).length ∧
    (Sequential.loadInput records Sequential.Containers.empty).id.length
        = (Spec.firstOccurrences records.flatten).length ∧
    (∀ u, u < (Spec.firstOccurrences records.flatten).length →
      (Sequential.loadInput records Sequential.Containers.empty).outEdges.getD u [] =
        (records.filter (fun r => decide
            (Sequential.idOf (Sequential.loadInput records Sequential.Containers.empty)
              (r.headD "") = u))).flatMap
          (fun r => r.tail.map
            (Sequential.idOf (Sequential.loadInput records Sequential.Containers.empty)))) ∧
    (∀ es ∈ (Sequential.loadInput records Sequential.Containers.empty).outEdges,
      ∀ v ∈ es, v < (Spec.firstOccurrences records.flatten).length) ∧
    (∀ s ∈ records.flatten, (∀ r ∈ records, r.head? ≠ some s) →
      (Sequential.loadInput records Sequential.Containers.empty).outEdges.getD
        (Sequential.idOf (Sequential.loadInput records Sequential.Containers.empty) s) []
        = []) := by
  obtain ⟨hc, hrid, _⟩ := Sequential.loadInput_core records hne
  refine ⟨by rw [hc.2.1, hrid], by rw [hc.1, hrid],
    fun u _ => Sequential.loadInput_slots records hne u, ?_,
    fun s hs hsrc => Sequential.slot_of_never_source records hne s hs hsrc⟩
  intro es hes v hv
  obtain ⟨u, hu, rfl⟩ := List.getElem_of_mem hes
  have hget : (Sequential.loadInput records Sequential.Containers.empty).outEdges.getD u []
      = (Sequential.loadInput records Sequential.Containers.empty).outEdges[u] := by
    rw [List.getD_eq_getElem?_getD, List.getElem?_eq_getElem hu]
    rfl
  rw [← hget, Sequential.loadInput_slots records hne u] at hv
  obtain ⟨r, hr, s, hs, rfl⟩ := Sequential.mem_slotOf _ _ _ _ hv
  rw [← hrid]
  exact Sequential.idOf_lt records hne r hr s hs

/-- Witness of C9: the first record repeats a destination and has a self-loop, `B` and `D`
never send. -/
theorem loadInput_outEdges_witness :
    (Sequential.loadInput [["A", "B", "B", "A"], ["C", "A"], ["D"], ["A", "C"]]
        Sequential.Containers.empty).outEdges.length
      = (Spec.firstOccurrences
          [["A", "B", "B", "A"], ["C", "A"], ["D"], ["A", "C"]].flatten).length ∧
    (Sequential.loadInput [["A", "B", "B", "A"], ["C", "A"], ["D"], ["A", "C"]]
        Sequential.Containers.empty).outEdges = [[1, 1, 0, 2], [], [0], []] :=
  ⟨(loadInput_outEdges [["A", "B", "B", "A"], ["C", "A"], ["D"], ["A", "C"]]
      (by decide)).1, by decide⟩

end PageRank

/-! ## Ingestion by the accelerated `loadInput` -/

namespace PageRank

theorem getD_append_replicate_nil (l : List (List Nat)) (k x : Nat) :
    (l ++ List.replicate k []).getD x [] = l.getD x [] := by
  rw [List.getD_eq_getElem?_getD, List.getD_eq_getElem?_getD]
  by_cases hx : x < l.length
  · rw [List.getElem?_append_left hx]
  · rw [List.getElem?_append_right (by omega), List.getElem?_eq_none (l := l) (by omega),
      List.getElem?_replicate]
    split <;> rfl

namespace Accelerated

theorem getId_matches (a : Ingest) (c : Sequential.Containers) (h : Matches a c)
    (hc : Sequential.Consistent c) (s : String) :
    (getId a s).1 = (Sequential.getId c s).1 ∧
      Matches (getId a s).2 (Sequential.getId c s).2 := by
  obtain ⟨h1, h2, h3, h4⟩ := h
  obtain ⟨g1, g2, g3, g4⟩ := Sequential.getId_spec c hc s
  have hle : c.rid.length ≤ (Sequential.getId c s).2.rid.length := by
    rw [g2]; exact (addLabel_extends c.rid s).length_le
  cases hl : c.id.lookup s with
  | some i =>
    have e1 : getId a s = (i, a) := by simp only [getId, h1, hl]
    have e2 : Sequential.getId c s = (i, c) := by simp only [Sequential.getId, hl]
    rw [e1, e2]
    exact ⟨rfl, h1, h2, h3, h4⟩
  | none =>
    have e1 : getId a s = (a.pageIds.length,
        { a with pageIds := a.pageIds ++ [(s, a.pageIds.length)],
                 pageNames := a.pageNames ++ [s] }) := by
      simp only [getId, h1, hl]
    have e2 : Sequential.getId c s = (c.id.length,
        { id := c.id ++ [(s, c.id.length)], rid := c.rid ++ [s],
          outEdges := c.outEdges ++ [[]] }) := by
      simp only [Sequential.getId, hl]
    rw [e2] at hle
    rw [e1, e2]
    refine ⟨by rw [h1], by simp [h1], by simp [h2], le_trans h3 hle, ?_⟩
    intro x
    simp only
    rw [getD_append_nil_slot, h4]

theorem growTo_matches (a : Ingest) (c : Sequential.Containers) (h : Matches a c) (u : Nat)
    (hu : u < c.rid.length) :
    Matches (growTo u a) c ∧ u < (growTo u a).tmpEdges.length := by
  obtain ⟨h1, h2, h3, h4⟩ := h
  unfold growTo
  by_cases hle : a.tmpEdges.length ≤ u
  · simp only [hle, if_true]
    refine ⟨⟨h1, h2, ?_, ?_⟩, ?_⟩
    · simp only [List.length_append, List.length_replicate]
      omega
    · intro x
      simp only
      rw [getD_append_replicate_nil, h4]
    · simp only [List.length_append, List.length_replicate]
      omega
  · simp only [hle, if_false]
    exact ⟨⟨h1, h2, h3, h4⟩, by omega⟩

theorem readDest_matches (u : Nat) (a : Ingest) (c : Sequential.Containers) (h : Matches a c)
    (hc : Sequential.Consistent c) (hua : u < a.tmpEdges.length) (w0 w0' w : String) :
    Matches (readDest u (a, w0) w).1 (Sequential.readDest u (c, w0') w).1 ∧
      u < (readDest u (a, w0) w).1.tmpEdges.length := by
  obtain ⟨m1, m2⟩ := getId_matches a c h hc w
  obtain ⟨g1, g2, g3, g4⟩ := Sequential.getId_spec c hc w
  obtain ⟨h1, h2, h3, h4⟩ := h
  obtain ⟨n1, n2, n3, n4⟩ := m2
  have hta : (getId a w).2.tmpEdges = a.tmpEdges := by
    unfold getId
    cases a.pageIds.lookup w <;> rfl
  have huc : u < (Sequential.getId c w).2.outEdges.length := by
    rw [g1.2.1]
    have := (addLabel_extends c.rid w).length_le
    rw [g2]
    omega
  unfold readDest Sequential.readDest
  refine ⟨⟨n1, n2, ?_, ?_⟩, ?_⟩
  · simp only [List.length_modify]
    exact n3
  · intro x
    simp only
    rw [getD_modify_push _ _ _ _ (by rw [hta]; exact hua), getD_modify_push _ _ _ _ huc, m1,
      n4, n4]
  · simp only [List.length_modify, hta]
    exact hua

theorem foldl_readDest_matches (u : Nat) (t : List String) (a : Ingest)
    (c : Sequential.Containers) (h : Matches a c) (hc : Sequential.Consistent c)
    (hua : u < a.tmpEdges.length) (huc : u < c.rid.length) (w0 w0' : String) :
    Matches (t.foldl (readDest u) (a, w0)).1 (t.foldl (Sequential.readDest u) (c, w0')).1 := by
  induction t generalizing a c w0 w0' with
  | nil => exact h
  | cons w t ih =>
    obtain ⟨r1, r2⟩ := readDest_matches u a c h hc hua w0 w0' w
    obtain ⟨s1, s2, _⟩ := Sequential.readDest_spec u c w0' hc huc w
    have huc' : u < (Sequential.readDest u (c, w0') w).1.rid.length := by
      rw [s2]
      exact lt_of_lt_of_le huc (addLabel_extends c.rid w).length_le
    simp only [List.foldl_cons]
    exact ih (readDest u (a, w0) w).1 (Sequential.readDest u (c, w0') w).1 r1 s1 r2 huc'
      (readDest u (a, w0) w).2 (Sequential.readDest u (c, w0') w).2

theorem readLine_matches (a : Ingest) (c : Sequential.Containers) (h : Matches a c)
    (hc : Sequential.Consistent c) (w0 w0' : String) (x : String) (t : List String) :
    Matches (readLine (a, w0) (x :: t)).1 (Sequential.readLine (c, w0') (x :: t)).1 := by
  obtain ⟨m1, m2⟩ := getId_matches a c h hc x
  obtain ⟨g1, g2, g3, g4⟩ := Sequential.getId_spec c hc x
  have huc : (Sequential.getId c x).1 < (Sequential.getId c x).2.rid.length := by
    rw [g3]
    exact List.indexOf_lt_length.mpr (by rw [g2]; exact mem_addLabel c.rid x)
  obtain ⟨k1, k2⟩ := growTo_matches _ _ m2 _ huc
  have e1 : readLine (a, w0) (x :: t) =
      t.foldl (readDest (getId a x).1) (growTo (getId a x).1 (getId a x).2, x) := rfl
  have e2 : Sequential.readLine (c, w0') (x :: t) =
      t.foldl (Sequential.readDest (Sequential.getId c x).1) ((Sequential.getId c x).2, x) := rfl
  rw [e1, e2, m1]
  exact foldl_readDest_matches _ t _ _ k1 g1 k2 huc x x

theorem foldl_readLine_matches (P : List (List String)) (hP : ∀ r ∈ P, r ≠ []) (a : Ingest)
    (c : Sequential.Containers) (h : Matches a c) (hc : Sequential.Consistent c)
    (w0 w0' : String) :
    Matches (P.foldl readLine (a, w0)).1 (P.foldl Sequential.readLine (c, w0')).1 := by
  induction P generalizing a c w0 w0' with
  | nil => exact h
  | cons r P ih =>
    obtain ⟨x, t, rfl⟩ := List.exists_cons_of_ne_nil (hP _ (List.mem_cons_self _ _))
    simp only [List.foldl_cons]
    exact ih (fun r' hr' => hP r' (List.mem_cons_of_mem _ hr')) _ _
      (readLine_matches a c h hc w0 w0' x t)
      (Sequential.readLine_spec c w0' hc x t).1 _ _

end Accelerated

end PageRank

/-! ## The CSR arrays of the accelerated `loadInput` -/

namespace PageRank

namespace Accelerated

theorem flattenEdges_eq (T : List (List Nat)) (e0 o0 : List Nat) :
    flattenEdges T (e0, o0) =
      (e0 ++ T.flatten,
        o0 ++ (List.range T.length).map (fun i => (e0 ++ (T.take (i + 1)).flatten).length)) := by
  unfold flattenEdges
  induction T generalizing e0 o0 with
  | nil => simp
  | cons v T ih =>
    rw [List.foldl_cons, ih, List.length_cons, List.range_succ_eq_map, List.map_cons,
      List.map_map]
    simp [List.append_assoc]

theorem padOffsets_eq (n e : Nat) (offsets : List Nat) :
    padOffsets n e offsets = offsets ++ List.replicate (n + 1 - offsets.length) e := by
  generalize hk : n + 1 - offsets.length = k
  induction k generalizing offsets with
  | zero =>
    rw [padOffsets]
    have : ¬ offsets.length ≤ n := by omega
    simp [this]
  | succ k ih =>
    rw [padOffsets]
    have h1 : offsets.length ≤ n := by omega
    rw [if_pos h1, ih (offsets ++ [e]) (by simp; omega)]
    simp [List.replicate_succ]

/-- Length of the first `i` lists of `T` put end to end. -/
theorem length_take_flatten_mono (T : List (List Nat)) {i j : Nat} (h : i ≤ j) :
    (T.take i).flatten.length ≤ (T.take j).flatten.length := by
  obtain ⟨r, hr⟩ := List.take_prefix_take_left T h
  rw [← hr, List.flatten_append, List.length_append]
  exact Nat.le_add_right _ _

/-- The padded offsets table: entry `i` is the number of edges of the first `i` vertices. -/
theorem offsets_eq (T : List (List Nat)) (n : Nat) (hT : T.length ≤ n) :
    padOffsets n T.flatten.length
        ([0] ++ (List.range T.length).map (fun i => (T.take (i + 1)).flatten.length)) =
      (List.range (n + 1)).map (fun i => (T.take i).flatten.length) := by
  rw [padOffsets_eq]
  have hsplit : n + 1 = (T.length + 1) + (n - T.length) := by omega
  have hlen : n + 1 - ([0] ++ (List.range T.length).map
      (fun i => (T.take (i + 1)).flatten.length)).length = n - T.length := by
    simp
  rw [hlen]
  conv_rhs => rw [hsplit, List.range_add, List.map_append, List.range_succ_eq_map]
  congr 1
  · simp [List.map_map, Function.comp_def]
  · rw [List.map_map]
    have : ∀ j ∈ List.range (n - T.length),
        ((fun i => (T.take i).flatten.length) ∘ fun x => T.length + 1 + x) j
          = T.flatten.length := by
      intro j _
      simp only [Function.comp]
      rw [List.take_of_length_le (by omega)]
    rw [List.map_congr_left this, List.map_const', List.length_range]

theorem slice_eq (T : List (List Nat)) (v : Nat) :
    (T.flatten.drop (T.take v).flatten.length).take
        ((T.take (v + 1)).flatten.length - (T.take v).flatten.length) = T.getD v [] := by
  rw [← List.drop_take]
  by_cases hv : v < T.length
  · have := List.drop_take_succ_flatten_eq_getElem T v hv
    rw [← List.map_take, ← List.map_take, ← List.length_flatten, ← List.length_flatten] at this
    rw [this, List.getD_eq_getElem?_getD, List.getElem?_eq_getElem hv]
    rfl
  · rw [List.take_of_length_le (by omega : T.length ≤ v + 1),
      List.take_of_length_le (by omega : T.length ≤ v), List.take_of_length_le (le_refl _),
      List.drop_length, List.getD_eq_getElem?_getD, List.getElem?_eq_none (by omega)]
    rfl

end Accelerated

end PageRank

namespace PageRank

namespace Accelerated

theorem length_take_succ_flatten (T : List (List Nat)) (v : Nat) :
    (T.take (v + 1)).flatten.length = (T.take v).flatten.length + (T.getD v []).length := by
  rw [List.getD_eq_getElem?_getD]
  by_cases hv : v < T.length
  · rw [List.take_succ, List.getElem?_eq_getElem hv, List.flatten_append, List.length_append]
    simp
  · rw [List.take_of_length_le (by omega : T.length ≤ v + 1),
      List.take_of_length_le (by omega : T.length ≤ v), List.getElem?_eq_none (by omega)]
    rfl

theorem getD_map_range (g : Nat → Nat) (n i : Nat) (hi : i < n) :
    ((List.range n).map g).getD i 0 = g i := by
  rw [List.getD_eq_getElem?_getD, List.getElem?_map, List.getElem?_range hi]
  rfl

theorem matches_empty :
    Matches { pageIds := [], pageNames := [], tmpEdges := [] } Sequential.Containers.empty :=
  ⟨rfl, rfl, le_refl _, fun _ => rfl⟩

/-- What the accelerated `loadInput` leaves in empty containers, in terms of the sequential
one: the same tables, and the CSR arrays of a list `T` of slots that agrees with `outEdges`. -/
theorem acc_loadInput_core (records : List (List String)) (hne : ∀ r ∈ records, r ≠ []) :
    (loadInput records Containers.empty).pageIds
        = (Sequential.loadInput records Sequential.Containers.empty).id ∧
    (loadInput records Containers.empty).pageNames
        = (Sequential.loadInput records Sequential.Containers.empty).rid ∧
    ∃ T : List (List Nat),
      T.length ≤ (loadInput records Containers.empty).pageIds.length ∧
      (∀ x, T.getD x []
        = (Sequential.loadInput records Sequential.Containers.empty).outEdges.getD x []) ∧
      (loadInput records Containers.empty).edges = T.flatten ∧
      (loadInput records Containers.empty).offsets =
        (List.range ((loadInput records Containers.empty).pageIds.length + 1)).map
          (fun i => (T.take i).flatten.length) := by
  have hm := foldl_readLine_matches records hne _ _ matches_empty
    Sequential.consistent_empty "" ""
  have hc := (Sequential.loadInput_core records hne).1
  obtain ⟨m1, m2, m3, m4⟩ := hm
  have hT : (records.foldl readLine
      (({ pageIds := [], pageNames := [], tmpEdges := [] } : Ingest), "")).1.tmpEdges.length
        ≤ (records.foldl readLine
      (({ pageIds := [], pageNames := [], tmpEdges := [] } : Ingest), "")).1.pageIds.length := by
    rw [m1]
    have := hc.1
    unfold Sequential.loadInput at this
    rw [this]
    exact m3
  refine ⟨m1, m2, _, hT, m4, ?_, ?_⟩
  · simp [loadInput, Containers.empty, flattenEdges_eq]
  · simp only [loadInput, Containers.empty, flattenEdges_eq, List.nil_append]
    exact offsets_eq _ _ hT

end Accelerated

/-- C10: on records with at least one token each, the accelerated `loadInput` builds the same
id tables as the sequential one and a CSR pair `(offsets, edges)` with `offsets` of length
`n + 1`, `offsets[0] = 0`, `offsets` non-decreasing and `offsets[n] = |edges|`, such that for
every vertex `v < n` the slice `edges[offsets[v] .. offsets[v+1])` has the length
`offsets[v+1] - offsets[v]` and equals `outEdges[v]` of the sequential `loadInput`; a label
that never appears as a first token gets an empty slice. -/
theorem accelerated_loadInput_csr (records : List (List String))
    (hne : ∀ r ∈ records, r ≠ []) :
    (Accelerated.loadInput records Accelerated.Containers.empty).pageIds
        = (Sequential.loadInput records Sequential.Containers.empty).id ∧
    (Accelerated.loadInput records Accelerated.Containers.empty).pageNames
        = (Sequential.loadInput records Sequential.Containers.empty).rid ∧
    (Accelerated.loadInput records Accelerated.Containers.empty).offsets.length
        = (Accelerated.loadInput records Accelerated.Containers.empty).pageIds.length + 1 ∧
    (Accelerated.loadInput records Accelerated.Containers.empty).offsets.getD 0 0 = 0 ∧
    (Accelerated.loadInput records Accelerated.Containers.empty).offsets.Pairwise
        (fun a b => a ≤ b) ∧
    (Accelerated.loadInput records Accelerated.Containers.empty).offsets.getD
        (Accelerated.loadInput records Accelerated.Containers.empty).pageIds.length 0
      = (Accelerated.loadInput records Accelerated.Containers.empty).edges.length ∧
    (∀ v, v < (Accelerated.loadInput records Accelerated.Containers.empty).pageIds.length →
      (Accelerated.loadInput records Accelerated.Containers.empty).offsets.getD (v + 1) 0
        = (Accelerated.loadInput records Accelerated.Containers.empty).offsets.getD v 0
          + ((Sequential.loadInput records Sequential.Containers.empty).outEdges.getD v
              []).length ∧
      Accelerated.slice (Accelerated.loadInput records Accelerated.Containers.empty) v
        = (Sequential.loadInput records Sequential.Containers.empty).outEdges.getD v []) ∧
    (∀ s ∈ records.flatten, (∀ r ∈ records, r.head? ≠ some s) →
      Accelerated.slice (Accelerated.loadInput records Accelerated.Containers.empty)
        (Sequential.idOf (Sequential.loadInput records Sequential.Containers.empty) s)
        = []) := by
  obtain ⟨h1, h2, T, hle, hT, hedges, hoff⟩ := Accelerated.acc_loadInput_core records hne
  have hslice : ∀ v,
      v < (Accelerated.loadInput records Accelerated.Containers.empty).pageIds.length →
      Accelerated.slice (Accelerated.loadInput records Accelerated.Containers.empty) v
        = (Sequential.loadInput records Sequential.Containers.empty).outEdges.getD v [] := by
    intro v hv
    unfold Accelerated.slice
    rw [hoff, Accelerated.getD_map_range _ _ _ (by omega),
      Accelerated.getD_map_range _ _ _ (by omega), hedges, Accelerated.slice_eq, hT]
  refine ⟨h1, h2, by rw [hoff]; simp, ?_, ?_, ?_, fun v hv => ⟨?_, hslice v hv⟩, ?_⟩
  · rw [hoff, Accelerated.getD_map_range _ _ _ (by omega)]
    rfl
  · rw [hoff, List.pairwise_map]
    exact (List.pairwise_lt_range _).imp
      (fun hab => Accelerated.length_take_flatten_mono T (Nat.le_of_lt hab))
  · rw [hoff, Accelerated.getD_map_range _ _ _ (by omega), hedges]
    rw [List.take_of_length_le hle]
  · rw [hoff, Accelerated.getD_map_range _ _ _ (by omega),
      Accelerated.getD_map_range _ _ _ (by omega), Accelerated.length_take_succ_flatten, hT]
  · intro s hs hsrc
    have hlt : Sequential.idOf (Sequential.loadInput records Sequential.Containers.empty) s
        < (Accelerated.loadInput records Accelerated.Containers.empty).pageIds.length := by
      obtain ⟨r, hr, hsr⟩ := List.mem_flatten.mp hs
      rw [h1, (Sequential.loadInput_core records hne).1.1]
      exact Sequential.idOf_lt records hne r hr s hsr
    rw [hslice _ hlt]
    exact Sequential.slot_of_never_source records hne s hs hsrc

end PageRank

namespace PageRank

/-- Witness of C10: five records; `B`, `D` and `F` never send, `A` sends in two records. -/
theorem accelerated_loadInput_csr_witness :
    (Accelerated.loadInput
        [["A", "B", "B", "A"], ["C", "A"], ["D"], ["E", "D", "B"], ["A", "F"]]
        Accelerated.Containers.empty).offsets.Pairwise (fun a b => a ≤ b) ∧
    (∀ v, v < (Accelerated.loadInput
        [["A", "B", "B", "A"], ["C", "A"], ["D"], ["E", "D", "B"], ["A", "F"]]
        Accelerated.Containers.empty).pageIds.length →
      Accelerated.slice (Accelerated.loadInput
          [["A", "B", "B", "A"], ["C", "A"], ["D"], ["E", "D", "B"], ["A", "F"]]
          Accelerated.Containers.empty) v
        = (Sequential.loadInput
            [["A", "B", "B", "A"], ["C", "A"], ["D"], ["E", "D", "B"], ["A", "F"]]
            Sequential.Containers.empty).outEdges.getD v []) ∧
    (Sequential.loadInput
        [["A", "B", "B", "A"], ["C", "A"], ["D"], ["E", "D", "B"], ["A", "F"]]
        Sequential.Containers.empty).outEdges = [[1, 1, 0, 5], [], [0], [], [3, 1], []] ∧
    (Accelerated.loadInput
        [["A", "B", "B", "A"], ["C", "A"], ["D"], ["E", "D", "B"], ["A", "F"]]
        Accelerated.Containers.empty).edges = [1, 1, 0, 5, 0, 3, 1] ∧
    (Accelerated.loadInput
        [["A", "B", "B", "A"], ["C", "A"], ["D"], ["E", "D", "B"], ["A", "F"]]
        Accelerated.Containers.empty).offsets = [0, 4, 4, 5, 5, 7, 7] := by
  have h := accelerated_loadInput_csr
    [["A", "B", "B", "A"], ["C", "A"], ["D"], ["E", "D", "B"], ["A", "F"]] (by decide)
  refine ⟨h.2.2.2.2.1, fun v hv => (h.2.2.2.2.2.2.1 v hv).2, by decide, by decide, ?_⟩
  simp only [Accelerated.loadInput, Accelerated.padOffsets_eq]
  decide

end PageRank

/-! ## The blocks of the distributed partition -/

namespace PageRank

namespace Distributed

theorem le_size_mul_verticesPerProcess (n size : Nat) (hsize : 1 ≤ size) :
    n ≤ size * verticesPerProcess n size := by
  unfold verticesPerProcess
  have h1 := Nat.div_add_mod (n + size - 1) size
  have h2 := Nat.mod_lt (n + size - 1) (by omega : size > 0)
  omega

theorem blockStart_succ (n size r : Nat) :
    blockStart n size (r + 1) = blockStart n size r + verticesPerProcess n size := by
  unfold blockStart
  rw [Nat.succ_mul]

theorem localN_eq (n size r : Nat) :
    localN n size r = blockEnd n size r - blockStart n size r := by
  unfold localN blockCount
  omega

theorem blockEnd_eq (n size r : Nat) :
    blockEnd n size r = min (blockStart n size (r + 1)) n := by
  rw [blockStart_succ]
  rfl

/-- The vertex `v` lies in the block of worker `r` exactly when `v < n` and the quotient of
`v` by the block size is `r`. -/
theorem mem_block_iff (n size r v : Nat) :
    (blockStart n size r ≤ v ∧ v < blockEnd n size r) ↔
      (v < n ∧ 0 < verticesPerProcess n size ∧ v / verticesPerProcess n size = r) := by
  unfold blockEnd blockStart
  generalize verticesPerProcess n size = p
  constructor
  · rintro ⟨h1, h2⟩
    have hp : 0 < p := by
      rcases Nat.eq_zero_or_pos p with h | h
      · subst h
        omega
      · exact h
    refine ⟨by omega, hp, ?_⟩
    apply Nat.div_eq_of_lt_le h1
    have : (r + 1) * p = r * p + p := Nat.succ_mul r p
    omega
  · rintro ⟨h1, hp, h3⟩
    subst h3
    have e1 := Nat.div_add_mod v p
    have e2 := Nat.mod_lt v hp
    have e3 : v / p * p = p * (v / p) := Nat.mul_comm _ _
    omega

theorem sum_localN (n size : Nat) (k : Nat) :
    ((List.range k).map (localN n size)).sum = min (blockStart n size k) n := by
  induction k with
  | zero => simp [blockStart]
  | succ k ih =>
    rw [List.range_succ, List.map_append, List.sum_append, ih, List.map_singleton,
      List.sum_singleton, localN_eq, blockEnd_eq, blockStart_succ]
    omega

end Distributed

/-- C11: for every `n >= 0` and every worker count `size >= 1`, with
`verticesPerProcess = ceil(n/size)`, the ranges `[start_r, end_r)` of the workers
`r = 0..size-1`, of length `localN`, are contiguous (each ends where the next starts, cut at
`n`), pairwise disjoint and cover exactly `[0, n)`: the `localN` values sum to `n` and every
vertex id belongs to exactly one worker. -/
theorem partition_blocks (n size : Nat) (hsize : 1 ≤ size) :
    Distributed.verticesPerProcess n size = (n + size - 1) / size ∧
    n ≤ size * Distributed.verticesPerProcess n size ∧
    (∀ r, Distributed.localN n size r
      = Distributed.blockEnd n size r - Distributed.blockStart n size r) ∧
    Distributed.blockStart n size 0 = 0 ∧
    (∀ r, Distributed.blockEnd n size r = min (Distributed.blockStart n size (r + 1)) n) ∧
    (∀ r r' v, r < size → r' < size →
      Distributed.blockStart n size r ≤ v → v < Distributed.blockEnd n size r →
      Distributed.blockStart n size r' ≤ v → v < Distributed.blockEnd n size r' → r = r') ∧
    (∀ v, v < n ↔ ∃ r, r < size ∧
      Distributed.blockStart n size r ≤ v ∧ v < Distributed.blockEnd n size r) ∧
    ((List.range size).map (Distributed.localN n size)).sum = n ∧
    (∀ v, v < n → ∃! r, r < size ∧
      Distributed.blockStart n size r ≤ v ∧ v < Distributed.blockEnd n size r) := by
  have hcover : ∀ v, v < n → v / Distributed.verticesPerProcess n size < size ∧
      Distributed.blockStart n size (v / Distributed.verticesPerProcess n size) ≤ v ∧
      v < Distributed.blockEnd n size (v / Distributed.verticesPerProcess n size) := by
    intro v hv
    have hle := Distributed.le_size_mul_verticesPerProcess n size hsize
    have hp : 0 < Distributed.verticesPerProcess n size := by
      rcases Nat.eq_zero_or_pos (Distributed.verticesPerProcess n size) with h | h
      · rw [h] at hle
        omega
      · exact h
    refine ⟨?_, (Distributed.mem_block_iff n size _ v).mpr ⟨hv, hp, rfl⟩⟩
    rw [Nat.div_lt_iff_lt_mul hp]
    have e : size * Distributed.verticesPerProcess n size
        = Distributed.verticesPerProcess n size * size := Nat.mul_comm _ _
    omega
  refine ⟨rfl, Distributed.le_size_mul_verticesPerProcess n size hsize,
    Distributed.localN_eq n size, by simp [Distributed.blockStart],
    Distributed.blockEnd_eq n size, ?_, ?_, ?_, ?_⟩
  · intro r r' v _ _ h1 h2 h3 h4
    have e1 := ((Distributed.mem_block_iff n size r v).mp ⟨h1, h2⟩).2.2
    have e2 := ((Distributed.mem_block_iff n size r' v).mp ⟨h3, h4⟩).2.2
    rw [← e1, ← e2]
  · intro v
    constructor
    · intro hv
      exact ⟨_, hcover v hv⟩
    · rintro ⟨r, _, h1, h2⟩
      exact ((Distributed.mem_block_iff n size r v).mp ⟨h1, h2⟩).1
  · rw [Distributed.sum_localN]
    have hle := Distributed.le_size_mul_verticesPerProcess n size hsize
    unfold Distributed.blockStart
    omega
  · intro v hv
    refine ⟨_, hcover v hv, ?_⟩
    rintro r ⟨_, h1, h2⟩
    exact ((Distributed.mem_block_iff n size r v).mp ⟨h1, h2⟩).2.2.symm

/-- Witness of C11: five vertices on four workers, blocks `[0,2)`, `[2,4)`, `[4,5)` and an
empty fourth block. -/
theorem partition_blocks_witness :
    ((List.range 4).map (Distributed.localN 5 4)).sum = 5 ∧
    (List.range 4).map (Distributed.localN 5 4) = [2, 2, 1, 0] ∧
    (∀ v, v < 5 → ∃! r, r < 4 ∧
      Distributed.blockStart 5 4 r ≤ v ∧ v < Distributed.blockEnd 5 4 r) :=
  ⟨(partition_blocks 5 4 (by decide)).2.2.2.2.2.2.2.1, by decide,
    (partition_blocks 5 4 (by decide)).2.2.2.2.2.2.2.2⟩

end PageRank

/-! ## The receive counts of the final gather -/

namespace PageRank

namespace Distributed

/-- The receive count of worker `i` agrees with its `localN` as long as its block starts at
or before `n`. -/
theorem blockCount_eq_localN (n size i : Nat) (h : blockStart n size i ≤ n) :
    blockCount n size i = (localN n size i : Int) := by
  unfold localN blockCount blockEnd at *
  omega

/-- The receive count of a worker whose block starts beyond `n` is negative. -/
theorem blockCount_neg (n size i : Nat) (h : n < blockStart n size i) :
    blockCount n size i < 0 ∧ localN n size i = 0 := by
  unfold localN blockCount blockEnd at *
  omega

theorem displacement_add_count_le (n size i : Nat) :
    (blockStart n size i : Int) + blockCount n size i ≤ n := by
  unfold blockCount blockEnd
  omega

end Distributed

/-- C12 at `n = 5`, `size = 4`, worker `i = 3`: `verticesPerProcess = 2`, the block starts at
`6 > n`, the `processVertexCount` shipped to the worker (its `localN`) is `0`, but the receive
count `counts[3] = end - start` is `-1`, and the gather is rejected. For a worker whose block
starts at or before `n` the two agree, and `displacements[i] + counts[i] <= n` always. -/
theorem gather_counts_at_example :
    Distributed.blockStart 5 4 3 = 6 ∧
    Distributed.localN 5 4 3 = 0 ∧
    Distributed.blockCount 5 4 3 = -1 ∧
    Distributed.rankPages 4 [("a", 0), ("b", 1), ("c", 2), ("d", 3), ("e", 4)]
      ["a", "b", "c", "d", "e"] [[], [], [], [], []] 1 = none ∧
    (∀ n size i, Distributed.blockStart n size i ≤ n →
      Distributed.blockCount n size i = (Distributed.localN n size i : Int)) ∧
    (∀ n size i, (Distributed.blockStart n size i : Int) + Distributed.blockCount n size i
      ≤ n) := by
  refine ⟨by decide, by decide, by decide, ?_, Distributed.blockCount_eq_localN,
    Distributed.displacement_add_count_le⟩
  unfold Distributed.rankPages Distributed.gatherv
  rw [if_neg (by decide)]

end PageRank

/-! ## The distributed back end on an empty vertex set -/

namespace PageRank

theorem foldl_id_of_forall {α β : Type} (f : α → β → α) (l : List β) (a : α)
    (h : ∀ x b, f x b = x) : l.foldl f a = a := by
  induction l generalizing a with
  | nil => rfl
  | cons b l ih => rw [List.foldl_cons, h, ih]

namespace Distributed

theorem verticesPerProcess_zero (size : Nat) : verticesPerProcess 0 size = 0 := by
  unfold verticesPerProcess
  rcases Nat.eq_zero_or_pos size with h | h
  · subst h
    rfl
  · exact Nat.div_eq_of_lt (by omega)

theorem blockCount_zero (size i : Nat) : blockCount 0 size i = 0 := by
  unfold blockCount blockEnd blockStart
  rw [verticesPerProcess_zero]
  simp

theorem localN_zero (size i : Nat) : localN 0 size i = 0 := by
  unfold localN
  rw [blockCount_zero]
  rfl

/-- With `n = 0` every receive count is `0` and the gather delivers the empty array. -/
theorem gatherv_zero (size : Nat) (ws : List Worker) : gatherv 0 size ws = some [] := by
  unfold gatherv
  have hall : (List.range size).all (fun i => decide (0 ≤ blockCount 0 size i)) = true := by
    rw [List.all_eq_true]
    intro i _
    rw [blockCount_zero]
    rfl
  rw [if_pos hall]
  congr 1
  apply foldl_id_of_forall
  intro pr i
  rw [blockCount_zero]
  rfl

/-- With `n = 0` no worker sends a message in a superstep. -/
theorem superstep_zero_flag (size : Nat) (outEdges : List (List Nat)) :
    (superstep 0 ((List.range size).map (initWorker 0 size outEdges))).2 = false := by
  have hflag : (superstep 0 ((List.range size).map (initWorker 0 size outEdges))).2 =
      (((List.range size).map (initWorker 0 size outEdges)).map localPhase).any
        (fun p => p.messagesSent) := rfl
  rw [hflag, Bool.eq_false_iff]
  intro h
  obtain ⟨p, hp, hps⟩ := List.any_eq_true.mp h
  obtain ⟨w, hw, rfl⟩ := List.mem_map.mp hp
  obtain ⟨r, _, rfl⟩ := List.mem_map.mp hw
  simp [localPhase, initWorker, localN_zero] at hps

theorem loop_of_flag_false (n k : Nat) (s : List Worker × Bool) (h : s.2 = false) :
    loop n k s = s := by
  cases k with
  | zero => rfl
  | succ k => simp [loop, h]

end Distributed

/-- C14 as stated fails: with no vertex at all (`n = 0`), one worker and `maxSupersteps = 1`,
the distributed `rankPages` does not fail but returns the empty rank vector. -/
theorem distributed_zero_counterexample :
    Distributed.rankPages 1 [] [] [] 1 ≠ none := by
  unfold Distributed.rankPages
  rw [List.length_nil, Distributed.gatherv_zero]
  exact Option.some_ne_none _

/-- C14, as the code has it: the distributed `rankPages` makes no test on the broadcast vertex
count. For every worker count `size >= 1` and every budget, when `n` is `0` every block is
empty, a budget of at least one superstep runs one superstep in which no message is sent, and
the gather returns the empty rank vector, without error. -/
theorem distributed_zero_vertices (size : Nat) (pageNames : List String)
    (outEdges : List (List Nat)) (maxSupersteps : Int) (_hsize : 1 ≤ size) :
    Distributed.rankPages size [] pageNames outEdges maxSupersteps = some [] ∧
    (∀ r, Distributed.localN 0 size r = 0) ∧
    (1 ≤ maxSupersteps →
      Distributed.loop 0 maxSupersteps.toNat
          ((List.range size).map (Distributed.initWorker 0 size outEdges), true)
        = Distributed.superstep 0 ((List.range size).map (Distributed.initWorker 0 size outEdges))
      ∧ (Distributed.superstep 0
          ((List.range size).map (Distributed.initWorker 0 size outEdges))).2 = false) := by
  refine ⟨?_, Distributed.localN_zero size, ?_⟩
  · unfold Distributed.rankPages
    rw [List.length_nil, Distributed.gatherv_zero]
  · intro hB
    obtain ⟨k, hk⟩ : ∃ k, maxSupersteps.toNat = k + 1 := ⟨maxSupersteps.toNat - 1, by omega⟩
    have hflag := Distributed.superstep_zero_flag size outEdges
    refine ⟨?_, hflag⟩
    rw [hk, Distributed.loop]
    simp only [if_true]
    exact Distributed.loop_of_flag_false 0 k _ hflag

/-- Witness of C14: two workers, budget 3, no vertex. -/
theorem distributed_zero_vertices_witness :
    Distributed.rankPages 2 [] [] [] 3 = some [] :=
  (distributed_zero_vertices 2 [] [] 3 (by decide)).1

end PageRank

/-! ## The host loop of the accelerated back end -/

namespace PageRank

namespace Accelerated

end Accelerated

end PageRank

namespace PageRank

namespace Accelerated

theorem createBuffers_eq_none (n : Nat) : createBuffers n 0 = none := by
  unfold createBuffers createBuffer
  by_cases hn : n * 8 = 0 <;> simp [hn]

theorem createBuffers_some_imp (n m : Nat) (h : createBuffers n m ≠ none) : 1 ≤ n ∧ 1 ≤ m := by
  constructor
  · by_contra hn
    have hz : n = 0 := by omega
    subst hz
    exact h (by simp [createBuffers, createBuffer])
  · by_contra hm
    have hz : m = 0 := by omega
    subst hz
    exact h (createBuffers_eq_none n)

end Accelerated

end PageRank

/-! ## Concurrent accumulation: no update is lost -/

namespace PageRank

namespace Atomic

theorem markedSum_set {α : Type} (f : α → Bool) (marks : List α) (shares : List ℚ) (i : Nat)
    (d m : α) (hlen : marks.length = shares.length) (hi : i < marks.length) :
    markedSum f (marks.set i m) shares + (if f (marks.getD i d) then shares.getD i 0 else 0) =
      markedSum f marks shares + (if f m then shares.getD i 0 else 0) := by
  unfold markedSum
  induction marks generalizing shares i with
  | nil => simp at hi
  | cons a marks ih =>
    cases shares with
    | nil => simp at hlen
    | cons x shares =>
      cases i with
      | zero =>
        simp only [List.set_cons_zero, List.zipWith_cons_cons, List.sum_cons, List.getD_cons_zero]
        ring
      | succ i =>
        have := ih shares i (by simpa using hlen) (by simpa using hi)
        simp only [List.set_cons_succ, List.zipWith_cons_cons, List.sum_cons,
          List.getD_cons_succ]
        linarith

theorem markedSum_all {α : Type} (f : α → Bool) (marks : List α) (shares : List ℚ)
    (hlen : marks.length = shares.length) (hall : ∀ m ∈ marks, f m = true) :
    markedSum f marks shares = shares.sum := by
  unfold markedSum
  induction marks generalizing shares with
  | nil =>
    cases shares with
    | nil => rfl
    | cons x shares => simp at hlen
  | cons a marks ih =>
    cases shares with
    | nil => simp at hlen
    | cons x shares =>
      simp only [List.zipWith_cons_cons, List.sum_cons, hall a (List.mem_cons_self _ _), if_true]
      rw [ih shares (by simpa using hlen) (fun m hm => hall m (List.mem_cons_of_mem _ hm))]

theorem markedSum_none {α : Type} (f : α → Bool) (marks : List α) (shares : List ℚ)
    (hnone : ∀ m ∈ marks, f m = false) : markedSum f marks shares = 0 := by
  unfold markedSum
  induction marks generalizing shares with
  | nil => simp
  | cons a marks ih =>
    cases shares with
    | nil => simp
    | cons x shares =>
      simp only [List.zipWith_cons_cons, List.sum_cons, hnone a (List.mem_cons_self _ _),
        Bool.false_eq_true, if_false, zero_add]
      exact ih shares (fun m hm => hnone m (List.mem_cons_of_mem _ hm))

theorem lt_length_of_getD_ne {α : Type} (l : List α) (i : Nat) (d : α) (h : l.getD i d ≠ d) :
    i < l.length := by
  by_contra hcon
  apply h
  rw [List.getD_eq_getElem?_getD, List.getElem?_eq_none (by omega)]
  rfl

end Atomic

end PageRank

namespace PageRank

namespace Atomic

theorem casInv_init (shares : List ℚ) (cell0 : ℚ) : CasInv shares cell0 (casInit shares cell0) := by
  refine ⟨by simp [casInit], ?_⟩
  rw [markedSum_none]
  · simp [casInit]
  · intro m hm
    rw [casInit, List.mem_replicate] at hm
    rw [hm.2]
    rfl

theorem casInv_step (shares : List ℚ) (cell0 : ℚ) (c : Cfg) (h : CasInv shares cell0 c)
    (i : Nat) : CasInv shares cell0 (casStep shares c i) := by
  obtain ⟨hlen, hcell⟩ := h
  unfold casStep
  cases hp : c.pcs.getD i Pc.done with
  | done => exact ⟨hlen, hcell⟩
  | load =>
    have hi : i < c.pcs.length := lt_length_of_getD_ne _ i Pc.done (by rw [hp]; simp)
    have key := markedSum_set (fun p => decide (p = Pc.done)) c.pcs shares i Pc.done
      (Pc.cas c.cell) hlen hi
    rw [hp] at key
    simp only [reduceCtorEq, decide_False, Bool.false_eq_true, if_false, add_zero] at key
    exact ⟨by simp [hlen], by simp only [key]; exact hcell⟩
  | cas old =>
    have hi : i < c.pcs.length := lt_length_of_getD_ne _ i Pc.done (by rw [hp]; simp)
    by_cases hc : c.cell = old
    · have key := markedSum_set (fun p => decide (p = Pc.done)) c.pcs shares i Pc.done
        Pc.done hlen hi
      rw [hp] at key
      simp only [reduceCtorEq, decide_False, Bool.false_eq_true, if_false, add_zero,
        decide_True, if_true] at key
      simp only [hc, if_true]
      refine ⟨by simp [hlen], ?_⟩
      simp only [key]
      rw [← hc, hcell]
      ring
    · have key := markedSum_set (fun p => decide (p = Pc.done)) c.pcs shares i Pc.done
        Pc.load hlen hi
      rw [hp] at key
      simp only [reduceCtorEq, decide_False, Bool.false_eq_true, if_false, add_zero] at key
      simp only [hc, if_false]
      exact ⟨by simp [hlen], by simp only [key]; exact hcell⟩

theorem casInv_foldl (shares : List ℚ) (cell0 : ℚ) (sched : List Nat) (c : Cfg)
    (h : CasInv shares cell0 c) : CasInv shares cell0 (sched.foldl (casStep shares) c) := by
  induction sched generalizing c with
  | nil => exact h
  | cons i sched ih => exact ih _ (casInv_step shares cell0 c h i)

/-- Safety of the compare-and-swap loop: whenever the cell is settled it holds the start
value plus all the shares. -/
theorem cas_settled_sum (shares : List ℚ) (cell0 : ℚ) (sched : List Nat)
    (hs : settled (casRun shares cell0 sched)) :
    (casRun shares cell0 sched).cell = cell0 + shares.sum := by
  obtain ⟨hlen, hcell⟩ := casInv_foldl shares cell0 sched _ (casInv_init shares cell0)
  rw [casRun] at hs ⊢
  rw [hcell, markedSum_all _ _ _ hlen (fun m hm => by simp [hs m hm])]

theorem ompInv_init (shares : List ℚ) (cell0 : ℚ) : OmpInv shares cell0 (ompInit shares cell0) := by
  refine ⟨by simp [ompInit], ?_⟩
  rw [markedSum_none]
  · simp [ompInit]
  · intro m hm
    rw [ompInit, List.mem_replicate] at hm
    rw [hm.2]
    rfl

theorem ompInv_step (shares : List ℚ) (cell0 : ℚ) (c : OmpCfg) (h : OmpInv shares cell0 c)
    (i : Nat) : OmpInv shares cell0 (ompStep shares c i) := by
  obtain ⟨hlen, hcell⟩ := h
  unfold ompStep
  by_cases hp : c.pending.getD i false = true
  · have hi : i < c.pending.length := lt_length_of_getD_ne _ i false (by rw [hp]; simp)
    have key := markedSum_set (fun b => !b) c.pending shares i false false hlen hi
    rw [hp] at key
    simp only [Bool.not_true, Bool.false_eq_true, if_false, add_zero, Bool.not_false,
      if_true] at key
    simp only [hp, if_true]
    refine ⟨by simp [hlen], ?_⟩
    simp only [key]
    rw [hcell]
    ring
  · simp only [hp, Bool.false_eq_true, if_false]
    exact ⟨hlen, hcell⟩

theorem ompInv_foldl (shares : List ℚ) (cell0 : ℚ) (sched : List Nat) (c : OmpCfg)
    (h : OmpInv shares cell0 c) : OmpInv shares cell0 (sched.foldl (ompStep shares) c) := by
  induction sched generalizing c with
  | nil => exact h
  | cons i sched ih => exact ih _ (ompInv_step shares cell0 c h i)

/-- Safety of the atomic update: whenever the cell is settled it holds the start value plus
all the shares. -/
theorem omp_settled_sum (shares : List ℚ) (cell0 : ℚ) (sched : List Nat)
    (hs : ompSettled (ompRun shares cell0 sched)) :
    (ompRun shares cell0 sched).cell = cell0 + shares.sum := by
  obtain ⟨hlen, hcell⟩ := ompInv_foldl shares cell0 sched _ (ompInv_init shares cell0)
  rw [ompRun] at hs ⊢
  rw [hcell, markedSum_all _ _ _ hlen (fun m hm => by simp [hs m hm])]

end Atomic

end PageRank

/-! ## Concurrent accumulation: every fair interleaving settles -/

namespace PageRank

namespace Atomic

theorem getD_set_eq {α : Type} (l : List α) (i : Nat) (x d : α) (hi : i < l.length) :
    (l.set i x).getD i d = x := by
  rw [List.getD_eq_getElem?_getD, List.getElem?_set]
  simp [hi]

theorem getD_set_ne {α : Type} (l : List α) (i j : Nat) (x d : α) (h : j ≠ i) :
    (l.set j x).getD i d = l.getD i d := by
  rw [List.getD_eq_getElem?_getD, List.getD_eq_getElem?_getD, List.getElem?_set]
  simp [h]

theorem live_set (pcs : List Pc) (i : Nat) (q : Pc) (hi : i < pcs.length) :
    live (pcs.set i q) + (if pcs.getD i Pc.done ≠ Pc.done then 1 else 0) =
      live pcs + (if q ≠ Pc.done then 1 else 0) := by
  unfold live
  induction pcs generalizing i with
  | nil => simp at hi
  | cons a pcs ih =>
    cases i with
    | zero =>
      simp only [List.set_cons_zero, List.countP_cons, List.getD_cons_zero, decide_eq_true_eq]
      omega
    | succ i =>
      have := ih i (by simpa using hi)
      simp only [List.set_cons_succ, List.countP_cons, List.getD_cons_succ]
      omega

theorem live_pos (pcs : List Pc) (i : Nat) (h : pcs.getD i Pc.done ≠ Pc.done) :
    1 ≤ live pcs := by
  have hi := lt_length_of_getD_ne pcs i Pc.done h
  unfold live
  rw [Nat.succ_le_iff, List.countP_pos_iff]
  refine ⟨pcs[i], List.getElem_mem hi, ?_⟩
  rw [List.getD_eq_getElem?_getD, List.getElem?_eq_getElem hi] at h
  simpa using h

end Atomic

end PageRank

namespace PageRank

namespace Atomic

/-- A step of sender `i` itself brings it nearer to the exit. -/
theorem potential_own_step (shares : List ℚ) (c : Cfg) (i : Nat)
    (h : c.pcs.getD i Pc.done ≠ Pc.done) :
    potential (casStep shares c i) i + 1 ≤ potential c i := by
  have hi := lt_length_of_getD_ne c.pcs i Pc.done h
  have hpos := live_pos c.pcs i h
  unfold casStep potential
  cases hp : c.pcs.getD i Pc.done with
  | done => exact absurd hp h
  | load =>
    have hl := live_set c.pcs i (Pc.cas c.cell) hi
    rw [hp] at hl
    simp only [ne_eq, reduceCtorEq, not_false_eq_true, if_true] at hl
    simp only [getD_set_eq _ _ _ _ hi, if_true]
    omega
  | cas old =>
    by_cases hc : c.cell = old
    · simp only [hc, if_true, getD_set_eq _ _ _ _ hi]
      omega
    · have hl := live_set c.pcs i Pc.load hi
      rw [hp] at hl
      simp only [ne_eq, reduceCtorEq, not_false_eq_true, if_true] at hl
      simp only [hc, if_false, getD_set_eq _ _ _ _ hi]
      omega

/-- A step of another sender never moves sender `i` away from the exit. -/
theorem potential_other_step (shares : List ℚ) (c : Cfg) (i j : Nat) (hij : j ≠ i) :
    potential (casStep shares c j) i ≤ potential c i := by
  unfold casStep
  cases hp : c.pcs.getD j Pc.done with
  | done => exact le_refl _
  | load =>
    have hj := lt_length_of_getD_ne c.pcs j Pc.done (by rw [hp]; simp)
    have hl := live_set c.pcs j (Pc.cas c.cell) hj
    rw [hp] at hl
    simp only [ne_eq, reduceCtorEq, not_false_eq_true, if_true] at hl
    have hlive : live (c.pcs.set j (Pc.cas c.cell)) = live c.pcs := by omega
    unfold potential
    simp only [getD_set_ne _ _ _ _ _ hij, hlive]
    exact le_refl _
  | cas old =>
    have hj := lt_length_of_getD_ne c.pcs j Pc.done (by rw [hp]; simp)
    have hpos := live_pos c.pcs j (by rw [hp]; simp)
    by_cases hc : c.cell = old
    · have hl := live_set c.pcs j Pc.done hj
      rw [hp] at hl
      simp only [ne_eq, reduceCtorEq, not_false_eq_true, if_true, not_true_eq_false,
        if_false] at hl
      unfold potential
      simp only [hc, if_true, getD_set_ne _ _ _ _ _ hij]
      cases hq : c.pcs.getD i Pc.done with
      | done => exact le_refl _
      | load => simp only; omega
      | cas o =>
        simp only
        split <;> split <;> omega
    · have hl := live_set c.pcs j Pc.load hj
      rw [hp] at hl
      simp only [ne_eq, reduceCtorEq, not_false_eq_true, if_true] at hl
      have hlive : live (c.pcs.set j Pc.load) = live c.pcs := by omega
      unfold potential
      simp only [hc, if_false, getD_set_ne _ _ _ _ _ hij, hlive]
      exact le_refl _

theorem potential_pos (c : Cfg) (i : Nat) (h : c.pcs.getD i Pc.done ≠ Pc.done) :
    1 ≤ potential c i := by
  have hpos := live_pos c.pcs i h
  unfold potential
  cases hp : c.pcs.getD i Pc.done with
  | done => exact absurd hp h
  | load => simp only; omega
  | cas old =>
    simp only
    split <;> omega

/-- A sender that is through stays through. -/
theorem done_step (shares : List ℚ) (c : Cfg) (i j : Nat)
    (h : c.pcs.getD i Pc.done = Pc.done) :
    (casStep shares c j).pcs.getD i Pc.done = Pc.done := by
  by_cases hij : j = i
  · subst hij
    unfold casStep
    rw [h]
    exact h
  · unfold casStep
    cases hp : c.pcs.getD j Pc.done with
    | done => exact h
    | load => simp only [getD_set_ne _ _ _ _ _ hij, h]
    | cas old =>
      simp only
      split <;> simp only [getD_set_ne _ _ _ _ _ hij, h]

theorem done_foldl (shares : List ℚ) (sched : List Nat) (c : Cfg) (i : Nat)
    (h : c.pcs.getD i Pc.done = Pc.done) :
    (sched.foldl (casStep shares) c).pcs.getD i Pc.done = Pc.done := by
  induction sched generalizing c with
  | nil => exact h
  | cons j sched ih => exact ih _ (done_step shares c i j h)

/-- Either sender `i` is through, or every one of its steps in the interleaving has brought
it nearer to the exit. -/
theorem potential_foldl (shares : List ℚ) (sched : List Nat) (c : Cfg) (i : Nat) :
    (sched.foldl (casStep shares) c).pcs.getD i Pc.done = Pc.done ∨
      potential (sched.foldl (casStep shares) c) i + sched.count i ≤ potential c i := by
  induction sched generalizing c with
  | nil => exact Or.inr (le_refl _)
  | cons j sched ih =>
    rw [List.foldl_cons]
    rcases ih (casStep shares c j) with hd | hle
    · exact Or.inl hd
    · by_cases hij : j = i
      · subst hij
        by_cases hdone : c.pcs.getD j Pc.done = Pc.done
        · exact Or.inl (done_foldl shares sched _ j (done_step shares c j j hdone))
        · have := potential_own_step shares c j hdone
          rw [List.count_cons_self]
          exact Or.inr (by omega)
      · have := potential_other_step shares c i j hij
        rw [List.count_cons_of_ne (Ne.symm hij)]
        exact Or.inr (by omega)

theorem potential_init (shares : List ℚ) (cell0 : ℚ) (i : Nat) :
    potential (casInit shares cell0) i ≤ 2 * shares.length := by
  unfold potential casInit
  have hlive : live (List.replicate shares.length Pc.load) ≤ shares.length := by
    unfold live
    exact le_trans (List.countP_le_length _) (by simp)
  cases hp : (List.replicate shares.length Pc.load).getD i Pc.done with
  | done => simp only; omega
  | load => simp only; omega
  | cas old =>
    have : Pc.cas old ∈ List.replicate shares.length Pc.load := by
      have hi := lt_length_of_getD_ne _ i Pc.done (by rw [hp]; simp)
      rw [List.getD_eq_getElem?_getD, List.getElem?_eq_getElem hi] at hp
      simp only [Option.getD_some] at hp
      rw [← hp]
      exact List.getElem_mem hi
    rw [List.mem_replicate] at this
    exact absurd this.2 (by simp)

/-- Liveness of the compare-and-swap loop: an interleaving that gives every sender `2K` steps
leaves the cell settled. -/
theorem cas_settles (shares : List ℚ) (cell0 : ℚ) (sched : List Nat)
    (hfair : ∀ i, i < shares.length → 2 * shares.length ≤ sched.count i) :
    settled (casRun shares cell0 sched) := by
  have hlen := (casInv_foldl shares cell0 sched _ (casInv_init shares cell0)).1
  intro p hp
  obtain ⟨i, hi, rfl⟩ := List.getElem_of_mem hp
  have hget : (casRun shares cell0 sched).pcs.getD i Pc.done
      = (casRun shares cell0 sched).pcs[i] := by
    rw [List.getD_eq_getElem?_getD, List.getElem?_eq_getElem hi]
    rfl
  rw [← hget]
  rcases potential_foldl shares sched (casInit shares cell0) i with hd | hle
  · exact hd
  · by_contra hnd
    have h1 := potential_pos (casRun shares cell0 sched) i hnd
    have h2 := potential_init shares cell0 i
    have h3 := hfair i (by rw [← hlen]; exact hi)
    unfold casRun at h1
    omega

end Atomic

end PageRank

namespace PageRank

namespace Atomic

theorem omp_pending_self (shares : List ℚ) (c : OmpCfg) (i : Nat) :
    (ompStep shares c i).pending.getD i false = false := by
  unfold ompStep
  by_cases hp : c.pending.getD i false = true
  · have hi := lt_length_of_getD_ne c.pending i false (by rw [hp]; simp)
    simp only [hp, if_true, getD_set_eq _ _ _ _ hi]
  · simp only [hp, Bool.false_eq_true, if_false]

theorem omp_pending_stays (shares : List ℚ) (c : OmpCfg) (i j : Nat)
    (h : c.pending.getD i false = false) :
    (ompStep shares c j).pending.getD i false = false := by
  by_cases hij : j = i
  · subst hij
    exact omp_pending_self shares c j
  · unfold ompStep
    split
    · simp only [getD_set_ne _ _ _ _ _ hij, h]
    · exact h

theorem omp_pending_foldl_stays (shares : List ℚ) (sched : List Nat) (c : OmpCfg) (i : Nat)
    (h : c.pending.getD i false = false) :
    (sched.foldl (ompStep shares) c).pending.getD i false = false := by
  induction sched generalizing c with
  | nil => exact h
  | cons j sched ih => exact ih _ (omp_pending_stays shares c i j h)

theorem omp_pending_foldl (shares : List ℚ) (sched : List Nat) (c : OmpCfg) (i : Nat)
    (hi : i ∈ sched) : (sched.foldl (ompStep shares) c).pending.getD i false = false := by
  induction sched generalizing c with
  | nil => simp at hi
  | cons j sched ih =>
    rw [List.foldl_cons]
    by_cases hij : j = i
    · subst hij
      exact omp_pending_foldl_stays shares sched _ j (omp_pending_self shares c j)
    · rcases List.mem_cons.mp hi with h | h
      · exact absurd h.symm hij
      · exact ih _ h

/-- Liveness of the atomic update: once every sender has had its turn the cell is settled. -/
theorem omp_settles (shares : List ℚ) (cell0 : ℚ) (sched : List Nat)
    (hfair : ∀ i, i < shares.length → i ∈ sched) :
    ompSettled (ompRun shares cell0 sched) := by
  have hlen := (ompInv_foldl shares cell0 sched _ (ompInv_init shares cell0)).1
  intro b hb
  obtain ⟨i, hi, rfl⟩ := List.getElem_of_mem hb
  have hget : (ompRun shares cell0 sched).pending.getD i false
      = (ompRun shares cell0 sched).pending[i] := by
    rw [List.getD_eq_getElem?_getD, List.getElem?_eq_getElem hi]
    rfl
  rw [← hget]
  exact omp_pending_foldl shares sched _ i (hfair i (by rw [← hlen]; exact hi))

end Atomic

/-- C15: `K` senders add their shares into one destination cell that holds `cell0` (`0` after
the fill of the outbox), every access to the cell being one indivisible step and `sched`
being the interleaving of these steps. For the `#pragma omp atomic` update of the
shared-memory back end and for the compare-and-swap retry loop `atomic_add_double` of the
accelerated back end alike, under every interleaving a settled cell holds `cell0` plus the sum
of all `K` shares; and the cell does settle, as soon as every sender has had one turn (atomic
update), respectively `2K` turns (retry loop). Arithmetic is exact. -/
theorem concurrent_accumulation (shares : List ℚ) (cell0 : ℚ) (sched : List Nat) :
    (Atomic.ompSettled (Atomic.ompRun shares cell0 sched) →
      (Atomic.ompRun shares cell0 sched).cell = cell0 + shares.sum) ∧
    ((∀ i, i < shares.length → i ∈ sched) →
      Atomic.ompSettled (Atomic.ompRun shares cell0 sched) ∧
      (Atomic.ompRun shares cell0 sched).cell = cell0 + shares.sum) ∧
    (Atomic.settled (Atomic.casRun shares cell0 sched) →
      (Atomic.casRun shares cell0 sched).cell = cell0 + shares.sum) ∧
    ((∀ i, i < shares.length → 2 * shares.length ≤ sched.count i) →
      Atomic.settled (Atomic.casRun shares cell0 sched) ∧
      (Atomic.casRun shares cell0 sched).cell = cell0 + shares.sum) :=
  ⟨Atomic.omp_settled_sum shares cell0 sched,
    fun h => ⟨Atomic.omp_settles shares cell0 sched h,
      Atomic.omp_settled_sum shares cell0 sched (Atomic.omp_settles shares cell0 sched h)⟩,
    Atomic.cas_settled_sum shares cell0 sched,
    fun h => ⟨Atomic.cas_settles shares cell0 sched h,
      Atomic.cas_settled_sum shares cell0 sched (Atomic.cas_settles shares cell0 sched h)⟩⟩

/-- Witness of C15: three senders with the shares `1/2`, `1/3`, `1/6` into a zero cell. In
the interleaving `0, 1, 2` repeated six times the senders `1` and `2` first fail their
compare-and-swap, and the settled cell holds `1`; the atomic updates in the order `2, 0, 1`
give `1` as well. -/
theorem concurrent_accumulation_witness :
    (Atomic.settled (Atomic.casRun [1 / 2, 1 / 3, 1 / 6] 0
        [0, 1, 2, 0, 1, 2, 0, 1, 2, 0, 1, 2, 0, 1, 2, 0, 1, 2]) ∧
      (Atomic.casRun [1 / 2, 1 / 3, 1 / 6] 0
        [0, 1, 2, 0, 1, 2, 0, 1, 2, 0, 1, 2, 0, 1, 2, 0, 1, 2]).cell = 1) ∧
    (Atomic.ompSettled (Atomic.ompRun [1 / 2, 1 / 3, 1 / 6] 0 [2, 0, 1]) ∧
      (Atomic.ompRun [1 / 2, 1 / 3, 1 / 6] 0 [2, 0, 1]).cell = 1) := by
  have h1 := (concurrent_accumulation [1 / 2, 1 / 3, 1 / 6] 0
    [0, 1, 2, 0, 1, 2, 0, 1, 2, 0, 1, 2, 0, 1, 2, 0, 1, 2]).2.2.2 (by decide)
  have h2 := (concurrent_accumulation [1 / 2, 1 / 3, 1 / 6] 0 [2, 0, 1]).2.1 (by decide)
  refine ⟨⟨h1.1, ?_⟩, ⟨h2.1, ?_⟩⟩
  · rw [h1.2]; norm_num
  · rw [h2.2]; norm_num

end PageRank
